import Mathlib

namespace VobjSpec

/-- C-locale `tolower` as used by `strcasecmp`/`strncasecmp`: only ASCII
letters are mapped (this is exactly Lean core `Char.toLower`). -/
def asciiLower (c : Char) : Char := c.toLower

/-- `strcasecmp a b == 0`: case-insensitive equality of whole strings. -/
def ciEq (a b : List Char) : Bool := a.map asciiLower == b.map asciiLower

/-- `strncasecmp l pre (strlen pre) == 0`: case-insensitive prefix test.
`pre` contains no NUL, so the NUL-stop of `strncasecmp` is equivalent to
comparing the first `pre.length` characters of `l` (when `l` is shorter,
its terminating NUL mismatches a character of `pre`). -/
def startsWithCI (pre l : List Char) : Bool := ciEq (l.take pre.length) pre

/-- The character set of the end-of-line stripping loop in
`vobject_next`: `strchr("\r\n\v\f", line[ret-1])` with `ret != 0`. -/
def isEol (c : Char) : Bool := c == '\r' || c == '\n' || c == '\x0b' || c == '\x0c'

/-- `while (ret && strchr("\r\n\v\f", line[ret-1])) --ret; line[ret] = 0;` —
drop trailing end-of-line characters. -/
def stripEOL (l : List Char) : List Char :=
  (l.reverse.dropWhile isEol).reverse

/-- The continuation test `strchr("\t ", *line)`: true iff the line
starts with tab or space, or is empty — C's `strchr` also matches the
terminating NUL of the two-character set `"\t "`, so an empty stripped
line satisfies the continuation test. -/
def isCont (l : List Char) : Bool :=
  match l with
  | [] => true
  | c :: _ => c == '\t' || c == ' '

/-- The two quote characters of `strchr("\"'", *str)` in `strchresc`. -/
def isQuote (c : Char) : Bool := c == '"' || c == '\''

/-- Scanner loop of `strchresc` (identical in both library generations):
`esc` is the active escape terminator (`none` for C's `esc == 0`), `i`
the index of the character under scrutiny. -/
def strchrescAux (c : Char) : List Char → Option Char → Nat → Option Nat
  | [], _, _ => none
  | ch :: rest, some q, i =>
      strchrescAux c rest (if ch == q then none else some q) (i + 1)
  | ch :: rest, none, i =>
      if ch == c then some i
      else strchrescAux c rest (if isQuote ch then some ch else none) (i + 1)

/-- `strchresc(str, c)`: position of the first occurrence of `c` that is
not inside an open quote span, as an index into `str` (`NULL` = `none`). -/
def strchresc (s : List Char) (c : Char) : Option Nat :=
  strchrescAux c s none 0

/-- One step of the scanner's escape state. -/
def escStep (esc : Option Char) (ch : Char) : Option Char :=
  match esc with
  | some q => if ch == q then none else some q
  | none => if isQuote ch then some ch else none

/-- Escape state of the scanner after consuming `l` starting from state
`esc` (delimiter-free reading of the same state machine). -/
def escStateFrom (esc : Option Char) (l : List Char) : Option Char :=
  l.foldl escStep esc

/-- Escape state after consuming `l` from the closed state. -/
def escState (l : List Char) : Option Char := escStateFrom none l

/-! ## The `vcardfilter.c` data model -/

/-- `struct vprop` of `vcardfilter.c`: a key, an optional value
(`char *value`, `NULL` = `none`) and the ordered metadata entries
(`sub`/`lastsub` chain), which are themselves property nodes. -/
inductive VProp : Type where
  | mk : List Char → Option (List Char) → List VProp → VProp

def VProp.key : VProp → List Char
  | .mk k _ _ => k

def VProp.value : VProp → Option (List Char)
  | .mk _ v _ => v

def VProp.sub : VProp → List VProp
  | .mk _ _ s => s

/-- `struct vobject`: type string, ordered property list, ordered child
list.  The `parent`/`next`/`prev` back-pointers are represented by the
tree shape itself; their pointer-level behavior is verified separately on
the heap model further below. -/
inductive VObject : Type where
  | mk : List Char → List VProp → List VObject → VObject

def VObject.vtype : VObject → List Char
  | .mk t _ _ => t

def VObject.props : VObject → List VProp
  | .mk _ p _ => p

def VObject.children : VObject → List VObject
  | .mk _ _ c => c

/-! ## `strtovprop` (vcardfilter.c line parsing) -/

/-- Quote stripping of a metadata value in `strtovprop`:
`end = value + strlen(value) - 1; if (strchr("\"'", *value) && (*value == *end)) { ++value; *end = 0; }`.
For an empty value the C computes `end` one byte before the value and the
result depends on the raw buffer layout around it (the bytes there are
the NUL separators written moments before); that out-of-bounds case is
not modelled — the model keeps the empty value unchanged.  No claim
depends on it. -/
def quoteStrip (v : List Char) : List Char :=
  match v.head?, v.getLast? with
  | some a, some b => if isQuote a && a == b then (v.drop 1).dropLast else v
  | _, _ => v

/-- One metadata segment: split at the first unescaped `=`, strip a
matching pair of quotes around the value.  (`mkvprop(meta, value)`: a
metadata entry never carries nested metadata of its own.) -/
def parseMetaSeg (seg : List Char) : VProp :=
  match strchresc seg '=' with
  | none => .mk seg none []
  | some i => .mk (seg.take i) (some (quoteStrip (seg.drop (i + 1)))) []

/-- The metadata-segment loop of `strtovprop`
(`for (; meta; meta = next) { next = strchresc(meta, ';'); ... }`),
driven by fuel: each step consumes at least one character, so fuel
`s.length` always suffices, and when the fuel runs out the remainder is
`[]`, for which the fuel-free branch returns the same `[[]]`. -/
def splitMetaSegsFuel : Nat → List Char → List (List Char)
  | 0, s => [s]
  | fuel + 1, s =>
    match strchresc s ';' with
    | none => [s]
    | some i => s.take i :: splitMetaSegsFuel fuel (s.drop (i + 1))

def splitMetaSegs (s : List Char) : List (List Char) := splitMetaSegsFuel s.length s

/-- `strtovprop(line)`: split the value off at the first unescaped `:`,
then the metadata block off at the first unescaped `;` of the part
before it, then split the metadata block at unescaped `;` into segments. -/
def strtovprop (line : List Char) : VProp :=
  let kv : List Char × Option (List Char) :=
    match strchresc line ':' with
    | none => (line, none)
    | some i => (line.take i, some (line.drop (i + 1)))
  match strchresc kv.1 ';' with
  | none => .mk kv.1 kv.2 []
  | some j => .mk (kv.1.take j) kv.2 ((splitMetaSegs (kv.1.drop (j + 1))).map parseMetaSeg)

/-! ## Serialization (`vobject_write2` of vcardfilter.c) -/

def beginColon : List Char := "BEGIN:".toList

def endColon : List Char := "END:".toList

/-- `strpbrk(v, ":;") != NULL`. -/
def strpbrkColonSemi (v : List Char) : Bool := v.any (fun c => c == ':' || c == ';')

/-- Reconstructed text of one metadata entry:
`strpbrk(meta->value, ":;") ? ";%s=\"%s\"" : ";%s=%s"`.
When `meta->value` is `NULL` the C passes `NULL` to `strpbrk`, which is
undefined behavior (a crash in practice); the model emits the bare name.
No claim depends on that case: well-formedness below requires metadata
values to be present. -/
def metaBody (m : VProp) : List Char :=
  match m.value with
  | some v =>
    if strpbrkColonSemi v then m.key ++ '=' :: '"' :: (v ++ ['"'])
    else m.key ++ '=' :: v
  | none => m.key

def metaText (m : VProp) : List Char := ';' :: metaBody m

/-- `":%s"` with a `NULL` value prints `:(null)` under glibc `vasprintf`. -/
def valueText : Option (List Char) → List Char
  | some v => v
  | none => "(null)".toList

/-- The reconstructed logical line of one property:
key, metadata entries, `:`, value. -/
def propLine (p : VProp) : List Char :=
  p.key ++ (p.sub.flatMap metaText) ++ ':' :: valueText p.value

/-- The VOF_UTF8 back-off loop:
`for (; todo > 72; --todo) if ((line[pos+todo] & 0xc0) != 0x80) break;`
(`rem` is the part of the line from `pos` on; bytes are modelled as the
code points of the characters, faithful for single-byte text). -/
def utf8Backoff (rem : List Char) : Nat → Nat
  | 0 => 0
  | todo + 1 =>
    if todo + 1 > 72 then
      if ((rem.getD (todo + 1) '\x00').toNat &&& 0xc0) != 0x80 then todo + 1
      else utf8Backoff rem todo
    else todo + 1

/-- The folding loop of `vobject_write2` (`vcardfilter.c`), reached for
flags without VOF_NOBREAK: `todo = pos ? 79 : 80`, shortened to the rest
of the line when `pos + todo >= fill`, continuation segments prefixed by
one space.  Fuel-driven: every step consumes `todo >= 1` characters, so
fuel `length` suffices and the fuel-exhausted remainder is `[]`. -/
def foldSegsFuel (utf8 : Bool) : Nat → List Char → Bool → List (List Char)
  | _, [], _ => []
  | 0, _, _ => []
  | fuel + 1, rem, first =>
    let todo0 := if first then 80 else 79
    let todo := if rem.length ≤ todo0 then rem.length
                else if utf8 then utf8Backoff rem todo0 else todo0
    ((if first then [] else [' ']) ++ rem.take todo)
      :: foldSegsFuel utf8 fuel (rem.drop todo) false

def foldSegs (utf8 : Bool) (l : List Char) : List (List Char) :=
  foldSegsFuel utf8 l.length l true

/-- The flag word of `vobject_write2(vc, fp, flags)`:
`VOF_NOBREAK` and `VOF_UTF8`. -/
structure WriteFlags where
  nobreak : Bool
  utf8 : Bool

mutual

/-- `vobject_write2` of `vcardfilter.c`, as the list of physical output
lines: `BEGIN:<type>`, each property's reconstructed line (folded unless
VOF_NOBREAK), the children in order, `END:<type>`.  The C return value
(number of lines) is the length of this list. -/
def vobject_write2 : VObject → WriteFlags → List (List Char)
  | .mk t props children, flags =>
    (beginColon ++ t)
      :: ((props.flatMap (fun p =>
            if flags.nobreak then [propLine p] else foldSegs flags.utf8 (propLine p)))
        ++ writeChildren children flags
        ++ [endColon ++ t])

/-- `for (child = vobject_first_child(vc); child; child = vobject_next_child(child))
nlines += vobject_write2(child, fp, flags);` -/
def writeChildren : List VObject → WriteFlags → List (List Char)
  | [], _ => []
  | c :: cs, flags => vobject_write2 c flags ++ writeChildren cs flags

end

/-! ## Parsing (`vobject_next` of vcardfilter.c) -/

/-- One open `BEGIN` block during parsing: the C keeps these as the chain
of `vc->parent` pointers; a frame holds the data accumulated so far for
one open vobject. -/
structure Frame where
  ftype : List Char
  fprops : List VProp
  fchildren : List VObject

/-- The vobject denoted by an open frame as it stands. -/
def Frame.close (f : Frame) : VObject := .mk f.ftype f.fprops f.fchildren

/-- `if (saved && *saved) { if (vc) { vp = strtovprop(saved); if (vp)
vprop_attach(vp, vc); } savedlen = 0; *saved = 0; }` — flush the pending
unfolded line into the innermost open vobject (append at the tail of its
property list, which is where `vprop_attach` inserts); with no open
vobject the pending line is discarded. -/
def flushSaved (saved : List Char) (stack : List Frame) : List Frame :=
  if saved.isEmpty then stack
  else
    match stack with
    | [] => []
    | f :: r => ⟨f.ftype, f.fprops ++ [strtovprop saved], f.fchildren⟩ :: r

/-- The main loop of `vobject_next` (`vcardfilter.c`; the `vobject.c`
generation has the identical control flow, differing only in how a
flushed line becomes a property).  State: remaining input lines, the
`saved` accumulator of the line unfolder, and the stack of open frames
(innermost first; the C's `vc` plus its `parent` chain).

* end of input with an open document: the C prints "unexpected EOF" and
  `break`s out of the loop, returning `vc` — the partially built
  *innermost* open vobject (it is neither freed nor `NULL`);
* end of input with no open document: returns `NULL`;
* a continuation line (leading tab/space, or empty after stripping) is
  appended to `saved` without its first character, or reported as a "bad
  line" and skipped when nothing is pending;
* any other line first flushes `saved`, then: `BEGIN:` pushes a new
  vobject (attached as last child of its parent on creation — the model
  appends it when the frame closes, which yields the same child order
  since nested children close in creation order); a matching
  (case-insensitive) `END:` pops — completing the whole document if the
  stack empties, in which case the remaining input is not read; any
  other line becomes the new `saved`. -/
def vobject_next_go : List (List Char) → List Char → List Frame → Option VObject
  | [], _, [] => none
  | [], _, f :: _ => some f.close
  | raw :: rest, saved, stack =>
    let l := stripEOL raw
    if isCont l then
      if saved.isEmpty then vobject_next_go rest saved stack
      else vobject_next_go rest (saved ++ l.drop 1) stack
    else
      let stack1 := flushSaved saved stack
      if startsWithCI beginColon l then
        vobject_next_go rest [] (⟨l.drop 6, [], []⟩ :: stack1)
      else
        match stack1 with
        | f :: r =>
          if startsWithCI endColon l && ciEq (l.drop 4) f.ftype then
            match r with
            | [] => some f.close
            | g :: r2 =>
              vobject_next_go rest [] (⟨g.ftype, g.fprops, g.fchildren ++ [f.close]⟩ :: r2)
          else vobject_next_go rest l (f :: r)
        | [] => vobject_next_go rest l []

/-- `vobject_next(fp, linenr)` on a whole stream (one call consumes at
most one complete top-level document). -/
def vobject_next (lines : List (List Char)) : Option VObject :=
  vobject_next_go lines [] []

/-- The recoverable diagnostics (`elog(LOG_INFO, ...)`) of `vobject_next`. -/
inductive PEvent : Type where
  | unexpectedEOF
  | badLine
deriving DecidableEq

/-- The diagnostics emitted by the `vobject_next` loop, mirroring
`vobject_next_go` state for state: "unexpected EOF on line %u" when input
ends with an open document, "bad line %u" for a continuation line with
nothing pending. -/
def vobject_next_events : List (List Char) → List Char → List Frame → List PEvent
  | [], _, [] => []
  | [], _, _ :: _ => [.unexpectedEOF]
  | raw :: rest, saved, stack =>
    let l := stripEOL raw
    if isCont l then
      if saved.isEmpty then .badLine :: vobject_next_events rest saved stack
      else vobject_next_events rest (saved ++ l.drop 1) stack
    else
      let stack1 := flushSaved saved stack
      if startsWithCI beginColon l then
        vobject_next_events rest [] (⟨l.drop 6, [], []⟩ :: stack1)
      else
        match stack1 with
        | f :: r =>
          if startsWithCI endColon l && ciEq (l.drop 4) f.ftype then
            match r with
            | [] => []
            | g :: r2 =>
              vobject_next_events rest [] (⟨g.ftype, g.fprops, g.fchildren ++ [f.close]⟩ :: r2)
          else vobject_next_events rest l (f :: r)
        | [] => vobject_next_events rest l []

/-! ## Metadata lookup -/

/-- Loop body of `vprop_meta` (`vcardfilter.c`): walk the structured
metadata entries, first case-insensitive key match wins,
`vprop_value(key) ?: ""`. -/
def vpropMetaGo (metas : List VProp) (metaname : List Char) : Option (List Char) :=
  match metas with
  | [] => none
  | m :: rest =>
    if ciEq m.key metaname then some (m.value.getD [])
    else vpropMetaGo rest metaname

/-- `vprop_meta(prop, metaname)` of `vcardfilter.c`. -/
def vprop_meta (prop : VProp) (metaname : List Char) : Option (List Char) :=
  vpropMetaGo prop.sub metaname

/-- `vprop_meta(prop, metaname)` of `vobject.c`: the metadata entries are
raw `name[=value]` segments; `strncasecmp(metaname, meta, needlelen)`
matches a prefix, then `meta[needlelen]` must be `=` (value follows) or
the terminating NUL (no value assigned → `""`), otherwise the loop keeps
looking. -/
def vprop_meta_v0 (metas : List (List Char)) (metaname : List Char) : Option (List Char) :=
  match metas with
  | [] => none
  | m :: rest =>
    if ciEq (m.take metaname.length) metaname then
      if m.get? metaname.length = some '=' then some (m.drop (metaname.length + 1))
      else if m.length = metaname.length then some []
      else vprop_meta_v0 rest metaname
    else vprop_meta_v0 rest metaname

/-! ## Duplication (`vprop_dup` / `vobject_dup_root` of vcardfilter.c) -/

mutual

/-- `vprop_dup` (`vcardfilter.c`): copy the key, `strdup` the value,
recursively duplicate the metadata entries, attaching each at the tail
(`vprop_attach_vprop` appends at `lastsub`), so the copies keep their
order. -/
def vprop_dup : VProp → VProp
  | .mk k v subs => .mk k v (dupSubs subs)

/-- `for (vp = src->sub; vp; vp = vp->next) vprop_attach_vprop(vprop_dup(vp), dst);` -/
def dupSubs : List VProp → List VProp
  | [] => []
  | p :: ps => vprop_dup p :: dupSubs ps

end

/-- `vobject_dup_root` (`vcardfilter.c`): fresh node (`zalloc`: no
children, no parent, no links), `strdup` of the type, properties
deep-copied in order (`vprop_attach` appends at the property-list tail). -/
def vobject_dup_root : VObject → VObject
  | .mk t props _children => .mk t (dupSubs props) []

/-! ## The `vobject.c` generation: property model and writer -/

/-- `struct vprop` of `vobject.c`: one allocation holding
`key NUL meta-1 NUL meta-2 NUL value`; modelled as the key, the raw
metadata segments, and the optional value. -/
structure VProp0 where
  key0 : List Char
  metas0 : List (List Char)
  value0 : Option (List Char)

inductive VObject0 : Type where
  | mk : List Char → List VProp0 → List VObject0 → VObject0

def VObject0.vtype : VObject0 → List Char
  | .mk t _ _ => t

def VObject0.props : VObject0 → List VProp0
  | .mk _ p _ => p

def VObject0.children : VObject0 → List VObject0
  | .mk _ _ c => c

/-- Reconstructed logical line in `vobject_write2` of `vobject.c`:
`"%s"` key, `";%s"` for each metadata segment, `":%s"` value. -/
def propLine_v0 (p : VProp0) : List Char :=
  p.key0 ++ (p.metas0.flatMap (fun m => ';' :: m)) ++ ':' :: valueText p.value0

/-- The folding loop of `vobject_write2` (`vobject.c`): identical to the
`vcardfilter.c` one except that the comparison is
`if (pos + todo > fill) todo = fill - pos` and there is no UTF-8 mode. -/
def foldSegsFuel_v0 : Nat → List Char → Bool → List (List Char)
  | _, [], _ => []
  | 0, _, _ => []
  | fuel + 1, rem, first =>
    let todo0 := if first then 80 else 79
    let todo := if rem.length < todo0 then rem.length else todo0
    ((if first then [] else [' ']) ++ rem.take todo)
      :: foldSegsFuel_v0 fuel (rem.drop todo) false

def foldSegs_v0 (l : List Char) : List (List Char) :=
  foldSegsFuel_v0 l.length l true

mutual

/-- `vobject_write2(vc, fp, columns)` of `vobject.c`, as the list of
physical output lines.  `columns` is only tested against zero
(`if (!columns) ...`); the folding loop itself uses the literal segment
sizes `todo = pos ? 79 : 80`. -/
def vobject_write2_v0 : VObject0 → Nat → List (List Char)
  | .mk t props children, columns =>
    (beginColon ++ t)
      :: ((props.flatMap (fun p =>
            if columns = 0 then [propLine_v0 p] else foldSegs_v0 (propLine_v0 p)))
        ++ writeChildren_v0 children columns
        ++ [endColon ++ t])

def writeChildren_v0 : List VObject0 → Nat → List (List Char)
  | [], _ => []
  | c :: cs, columns => vobject_write2_v0 c columns ++ writeChildren_v0 cs columns

end

/-! ## Theorems -/

def strList (ss : List String) : List (List Char) := ss.map String.toList

def scenarioInput : List (List Char) :=
  strList ["BEGIN:VCARD", "FN:John Doe", "EMAIL;TYPE=WORK:john@example.com", "END:VCARD"]

def scenarioEmail : VProp :=
  .mk "EMAIL".toList (some "john@example.com".toList)
    [.mk "TYPE".toList (some "WORK".toList) []]

def scenarioDoc : VObject :=
  .mk "VCARD".toList [.mk "FN".toList (some "John Doe".toList) [], scenarioEmail] []

def c4probe : VObject0 := .mk "T".toList [⟨"K".toList, [], some "xxxxxxxxxxxxx".toList⟩] []

/-- A string the scanner passes through without matching `c` and with the
escape state returning to closed. -/
def Passes (c : Char) (a : List Char) : Prop :=
  strchresc a c = none ∧ escState a = none

/-! ## Well-formedness: the serializable fragment of the data model -/

/-- A well-formed metadata entry: present nonempty quote-free value,
name free of the separator and quote characters (and of newline, which
the line-oriented wire format cannot carry), no nested metadata. -/
structure WFMeta (m : VProp) : Prop where
  sub_nil : m.sub = []
  val_some : ∃ v, m.value = some v ∧ v ≠ [] ∧ ∀ x ∈ v, isQuote x = false ∧ x ≠ '\n'
  key_ok : ∀ x ∈ m.key, x ≠ ':' ∧ x ≠ ';' ∧ x ≠ '=' ∧ isQuote x = false ∧ x ≠ '\n'

/-- A well-formed property of a document of type `T`: separator-clean
key, present value whose final character survives end-of-line stripping,
well-formed metadata, and a reconstructed line that the parser will not
mistake for a continuation, a `BEGIN:`, or the `END:` of `T`. -/
structure WFProp (T : List Char) (p : VProp) : Prop where
  key_ok : ∀ x ∈ p.key, x ≠ ':' ∧ x ≠ ';' ∧ isQuote x = false ∧ x ≠ '\n'
  val_some : ∃ v, p.value = some v ∧ (∀ x ∈ v, x ≠ '\n') ∧
      ∀ c, v.getLast? = some c → isEol c = false
  metas : ∀ m ∈ p.sub, WFMeta m
  not_cont : isCont (propLine p) = false
  not_begin : startsWithCI beginColon (propLine p) = false
  not_end : ¬(startsWithCI endColon (propLine p) = true ∧
      ciEq ((propLine p).drop 4) T = true)

/-- A well-formed block type: newline-free, final character survives
end-of-line stripping. -/
def WFType (U : List Char) : Prop :=
  (∀ x ∈ U, x ≠ '\n') ∧ ∀ c, U.getLast? = some c → isEol c = false

/-- `PhysSplit T line phys`: `phys` is a legal splitting of the logical
line `line` into physical lines — the unfolded first line followed by
continuation lines carrying one leading space — such that no fragment is
mistaken for a continuation, `BEGIN:`, or the closing `END:` of the open
type `T`, and every physical line survives end-of-line stripping. -/
inductive PhysSplit (T line : List Char) : List (List Char) → Prop where
  | mk (l0 : List Char) (pieces : List (List Char)) :
      line = l0 ++ pieces.flatten →
      l0 ≠ [] →
      isCont l0 = false →
      startsWithCI beginColon l0 = false →
      ¬(startsWithCI endColon l0 = true ∧ ciEq (l0.drop 4) T = true) →
      stripEOL l0 = l0 →
      (∀ c ∈ pieces, stripEOL (' ' :: c) = ' ' :: c) →
      PhysSplit T line (l0 :: pieces.map (fun c => ' ' :: c))

/-- `WFBody T body ps cs`: the physical lines `body` form a well-formed
interior of a `BEGIN:T` block denoting the property list `ps` and the
child list `cs`. -/
inductive WFBody : List Char → List (List Char) → List VProp → List VObject → Prop where
  | nil (T : List Char) : WFBody T [] [] []
  | prop (T : List Char) (p : VProp) (phys rest : List (List Char))
      (ps : List VProp) (cs : List VObject) :
      WFProp T p → PhysSplit T (propLine p) phys → WFBody T rest ps cs →
      WFBody T (phys ++ rest) (p :: ps) cs
  | child (T U : List Char) (body rest : List (List Char)) (ps2 : List VProp)
      (cs2 : List VObject) (ps : List VProp) (cs : List VObject) :
      WFType U → WFBody U body ps2 cs2 → WFBody T rest ps cs →
      WFBody T ((beginColon ++ U) :: (body ++ (endColon ++ U) :: rest))
        ps (VObject.mk U ps2 cs2 :: cs)

/-- Well-formed input for one `vobject_next` call: a `BEGIN:` line, a
well-formed block interior, the matching `END:` line, and arbitrary
further input (which the call does not read). -/
def WFInput (ls : List (List Char)) : Prop :=
  ∃ (U : List Char) (body rest : List (List Char)) (ps : List VProp) (cs : List VObject),
    WFType U ∧ WFBody U body ps cs ∧
    ls = (beginColon ++ U) :: (body ++ (endColon ++ U) :: rest)

/-- Well-formed document trees: those the parser produces from
well-formed input, and which the serializer reproduces exactly. -/
inductive WFObj : VObject → Prop where
  | mk (t : List Char) (props : List VProp) (children : List VObject) :
      WFType t → (∀ p ∈ props, WFProp t p) → (∀ c ∈ children, WFObj c) →
      WFObj (.mk t props children)

/-- What one `END:` line does for each shape of the remaining stack
(complete the document, or pop to the parent, attaching the closed
child at the tail of its child list as `vobject_attach` did at creation
order). -/
def closeStep (r : List Frame) (rest : List (List Char)) (obj : VObject) : Option VObject :=
  match r with
  | [] => some obj
  | g :: r2 => vobject_next_go rest [] (⟨g.ftype, g.fprops, g.fchildren ++ [obj]⟩ :: r2)

/-- The pending accumulator entering a parse step is either empty or one
well-formed property line; `pprops` is what flushing it appends. -/
def PendFlushes (T : List Char) (pend : List Char) (pprops : List VProp) : Prop :=
  (pend = [] ∧ pprops = []) ∨
    ∃ q, WFProp T q ∧ pend = propLine q ∧ pprops = [q]

def fnProp : VProp := .mk "FN".toList (some "John Doe".toList) []

/-! ## Heap model of the vobject hierarchy pointers -/

/-- The pointer state of the vobject hierarchy: for each node (an id),
its `parent`, sibling `next`/`prev`, and child-list head `list` /
tail `listlast` pointers (`NULL` = `none`).  A node that was never
allocated simply has every field `none`, which is also what `zalloc`
gives a fresh node. -/
@[ext]
structure Heap where
  par : Nat → Option Nat
  nxt : Nat → Option Nat
  prv : Nat → Option Nat
  fst : Nat → Option Nat
  lst : Nat → Option Nat

/-- Pointer write. -/
def upd (f : Nat → Option Nat) (x : Nat) (v : Option Nat) : Nat → Option Nat :=
  fun y => if y = x then v else f y

/-- `vobject_detach`, statement for statement:
if no parent, return; unlink from the parent's `list`/`listlast` head and
tail pointers and from the sibling chain; clear own `next`/`prev`/`parent`. -/
def vobject_detach (h : Heap) (vo : Nat) : Heap :=
  match h.par vo with
  | none => h
  | some p =>
    let h1 := if h.fst p = some vo then { h with fst := upd h.fst p (h.nxt vo) } else h
    let h2 := if h1.lst p = some vo then { h1 with lst := upd h1.lst p (h1.prv vo) } else h1
    let h3 := match h2.prv vo with
              | some q => { h2 with nxt := upd h2.nxt q (h2.nxt vo) }
              | none => h2
    let h4 := match h3.nxt vo with
              | some q => { h3 with prv := upd h3.prv q (h3.prv vo) }
              | none => h3
    { h4 with nxt := upd h4.nxt vo none, prv := upd h4.prv vo none, par := upd h4.par vo none }

/-- `vobject_attach`: detach from any previous parent, then append as the
last child of `parent`. -/
def vobject_attach (h0 : Heap) (obj parent : Nat) : Heap :=
  let h := vobject_detach h0 obj
  let h1 := { h with prv := upd h.prv obj (h.lst parent) }
  let h2 := match h1.lst parent with
            | some q => { h1 with nxt := upd h1.nxt q (some obj) }
            | none => { h1 with fst := upd h1.fst parent (some obj) }
  let h3 := { h2 with lst := upd h2.lst parent (some obj) }
  { h3 with par := upd h3.par obj (some parent) }

/-- `Seg h p s l s2`: starting from the scanning state `s` (expected
`prev` back-pointer, current link), the doubly linked sibling chain under
parent `p` traverses exactly the nodes `l` and leaves state `s2`. -/
def Seg (h : Heap) (p : Nat) : Option Nat × Option Nat → List Nat → Option Nat × Option Nat → Prop
  | s, [], s2 => s2 = s
  | s, a :: l, s2 => s.2 = some a ∧ h.par a = some p ∧ h.prv a = s.1 ∧ Seg h p (some a, h.nxt a) l s2

/-- `l` is exactly the child list of `p`: the chain from `list` to
`listlast` traverses `l`, and a node points to `p` iff it is in `l`,
exactly once. -/
def Represents (h : Heap) (p : Nat) (l : List Nat) : Prop :=
  Seg h p (none, h.fst p) l (l.getLast?, none) ∧
  h.lst p = l.getLast? ∧ (∀ a, h.par a = some p ↔ a ∈ l) ∧ l.Nodup

/-- The hierarchy invariant: every parent's child pointers form a
consistent doubly linked list, a node is in exactly the one child list
of its parent (and in none if it has no parent), and a parentless node
carries no sibling links (true of `zalloc`-fresh nodes and after
`vobject_detach`). -/
def Inv (h : Heap) : Prop :=
  (∀ p : Nat, ∃ l : List Nat, Represents h p l) ∧
  (∀ a : Nat, h.par a = none → h.nxt a = none ∧ h.prv a = none)

def attachSequence (h : Heap) : List (Nat × Nat) → Heap
  | [] => h
  | (obj, parent) :: rest => attachSequence (vobject_attach h obj parent) rest

def emptyHeap : Heap :=
  { par := fun _ => none, nxt := fun _ => none, prv := fun _ => none,
    fst := fun _ => none, lst := fun _ => none }

theorem strchrescAux_shift (c : Char) (s : List Char) (esc : Option Char) (i : Nat) :
    strchrescAux c s esc i = (strchrescAux c s esc 0).map (· + i) := by
  induction s generalizing esc i with
  | nil => simp [strchrescAux]
  | cons ch rest ih =>
    match esc with
    | some q =>
      rw [strchrescAux, strchrescAux, ih _ (i+1), ih _ 1]
      cases strchrescAux c rest (if ch == q then none else some q) 0
      · simp
      · simp; omega
    | none =>
      rw [strchrescAux, strchrescAux]
      by_cases h : ch = c
      · simp [h]
      · simp only [beq_iff_eq, h, if_false]
        rw [ih _ (i+1), ih _ 1]
        cases strchrescAux c rest (if isQuote ch then some ch else none) 0
        · simp
        · simp; omega

theorem strchrescAux_spec (c : Char) (s : List Char) (esc : Option Char) (j : Nat)
    (h : strchrescAux c s esc 0 = some j) :
    escStateFrom esc (s.take j) = none ∧ s.get? j = some c := by
  induction s generalizing esc j with
  | nil => simp [strchrescAux] at h
  | cons ch rest ih =>
    match esc with
    | some q =>
      rw [strchrescAux, strchrescAux_shift] at h
      match hj : strchrescAux c rest (if ch == q then none else some q) 0 with
      | none => rw [hj] at h; simp at h
      | some j2 =>
        rw [hj] at h; simp at h
        obtain ⟨hst, hget⟩ := ih _ _ hj
        subst h
        refine ⟨?_, by simpa using hget⟩
        simpa [escStateFrom, escStep] using hst
    | none =>
      rw [strchrescAux] at h
      by_cases hc : ch = c
      · simp [hc] at h
        subst h
        simp [escStateFrom, hc]
      · simp only [beq_iff_eq, hc, if_false] at h
        rw [strchrescAux_shift] at h
        match hj : strchrescAux c rest (if isQuote ch then some ch else none) 0 with
        | none => rw [hj] at h; simp at h
        | some j2 =>
          rw [hj] at h; simp at h
          obtain ⟨hst, hget⟩ := ih _ _ hj
          subst h
          refine ⟨?_, by simpa using hget⟩
          simpa [escStateFrom, escStep] using hst

theorem strchresc_noquote (c : Char) (s : List Char) (hq : ∀ x ∈ s, isQuote x = false) :
    (strchresc s c = none → ∀ x ∈ s, x ≠ c) ∧
      (∀ i, strchresc s c = some i → s.get? i = some c ∧ ∀ j < i, s.get? j ≠ some c) := by
  unfold strchresc
  induction s with
  | nil => simp [strchrescAux]
  | cons ch rest ih =>
    have hqr : ∀ x ∈ rest, isQuote x = false := fun x hx => hq x (List.mem_cons_of_mem _ hx)
    have ihr := ih hqr
    rw [strchrescAux]
    by_cases hc : ch = c
    · simp [hc]
    · simp only [beq_iff_eq, hc, if_false, hq ch (List.mem_cons_self _ _),
        Bool.false_eq_true, if_false]
      rw [strchrescAux_shift]
      constructor
      · intro h
        match hj : strchrescAux c rest none 0 with
        | some j2 => rw [hj] at h; simp at h
        | none =>
          intro x hx
          rcases List.mem_cons.mp hx with rfl | hx
          · exact hc
          · exact ihr.1 hj x hx
      · intro i h
        match hj : strchrescAux c rest none 0 with
        | none => rw [hj] at h; simp at h
        | some j2 =>
          rw [hj] at h; simp at h
          subst h
          obtain ⟨hg, hfirst⟩ := ihr.2 j2 hj
          refine ⟨by simpa using hg, ?_⟩
          intro j hji
          match j with
          | 0 => simpa using hc
          | j+1 =>
            simp only [List.get?_cons_succ]
            exact hfirst j (by omega)

/-- C5: the escape-aware scanner `strchresc` (a) only matches the
delimiter with the escape state closed — the returned position is never
inside a quoted span — and (b) on quote-free input returns exactly the
first occurrence of the delimiter, or none when absent. -/
theorem C5_strchresc_escape_aware :
    (∀ (s : List Char) (c : Char) (i : Nat), strchresc s c = some i →
        escState (s.take i) = none ∧ s.get? i = some c) ∧
    (∀ (s : List Char) (c : Char), (∀ x ∈ s, isQuote x = false) →
        (strchresc s c = none → ∀ x ∈ s, x ≠ c) ∧
        (∀ i, strchresc s c = some i →
            s.get? i = some c ∧ ∀ j < i, s.get? j ≠ some c)) := by
  constructor
  · intro s c i h
    exact strchrescAux_spec c s none i h
  · intro s c hq
    exact strchresc_noquote c s hq

theorem C5_strchresc_escape_aware_witness :
    (escState (("a'b;c';d".toList).take 6) = none ∧ ("a'b;c';d".toList).get? 6 = some ';') ∧
    (("ab:c".toList).get? 2 = some ':' ∧ ∀ j < 2, ("ab:c".toList).get? j ≠ some ':') :=
  ⟨C5_strchresc_escape_aware.1 "a'b;c';d".toList ';' 6 (by rfl),
   (C5_strchresc_escape_aware.2 "ab:c".toList ':' (by decide)).2 2 (by rfl)⟩

theorem vpropMetaGo_find (metas : List VProp) (name : List Char) :
    vpropMetaGo metas name
      = (metas.find? (fun m => ciEq m.key name)).map (fun m => m.value.getD []) := by
  induction metas with
  | nil => rfl
  | cons m rest ih =>
    rw [vpropMetaGo, List.find?]
    by_cases h : ciEq m.key name = true
    · simp [h]
    · simp [h, ih]

/-- C7: `vprop_meta` returns the value of the first metadata entry whose
name matches case-insensitively (the empty string when the matching
entry has no value), and none when no entry matches; on the
`EMAIL;TYPE=WORK` property of the spec scenario, looking up `TYPE`
yields `WORK`. -/
theorem C7_vprop_meta_lookup :
    (∀ (p : VProp) (name : List Char) (m : VProp),
        p.sub.find? (fun x => ciEq x.key name) = some m →
          (∀ v, m.value = some v → vprop_meta p name = some v) ∧
          (m.value = none → vprop_meta p name = some [])) ∧
    (∀ (p : VProp) (name : List Char),
        p.sub.find? (fun x => ciEq x.key name) = none → vprop_meta p name = none) ∧
    (vobject_next scenarioInput = some scenarioDoc ∧
      vprop_meta scenarioEmail "TYPE".toList = some "WORK".toList) := by
  refine ⟨?_, ?_, by rfl, by rfl⟩
  · intro p name m hfind
    rw [vprop_meta, vpropMetaGo_find, hfind]
    constructor
    · intro v hv
      simp [hv]
    · intro hv
      simp [hv]
  · intro p name hfind
    rw [vprop_meta, vpropMetaGo_find, hfind]
    rfl

theorem C7_vprop_meta_lookup_witness :
    vprop_meta scenarioEmail "type".toList = some "WORK".toList :=
  (C7_vprop_meta_lookup.1 scenarioEmail "type".toList
    (.mk "TYPE".toList (some "WORK".toList) []) (by rfl)).1 "WORK".toList rfl

/-- C9: the `vobject.c` `vprop_meta` only answers for a complete
metadata name — the stored segment must end or continue with `=`
exactly at the query's length after a case-insensitive prefix match — so
a query that is a strict prefix of a stored name (``TY`` against
``TYPE=WORK``) yields none, in both library generations. -/
theorem C9_vprop_meta_whole_name :
    (∀ (metas : List (List Char)) (name : List Char),
        vprop_meta_v0 metas name ≠ none →
          ∃ m ∈ metas, ciEq (m.take name.length) name = true ∧
            (m.length = name.length ∨ m.get? name.length = some '=')) ∧
    vprop_meta_v0 ["TYPE=WORK".toList] "TY".toList = none ∧
    vprop_meta scenarioEmail "TY".toList = none := by
  refine ⟨?_, by rfl, by rfl⟩
  intro metas name
  induction metas with
  | nil => simp [vprop_meta_v0]
  | cons m rest ih =>
    intro h
    rw [vprop_meta_v0] at h
    by_cases h1 : ciEq (m.take name.length) name = true
    · rw [if_pos h1] at h
      by_cases h2 : m.get? name.length = some '='
      · exact ⟨m, List.mem_cons_self _ _, h1, Or.inr h2⟩
      · rw [if_neg h2] at h
        by_cases h3 : m.length = name.length
        · exact ⟨m, List.mem_cons_self _ _, h1, Or.inl h3⟩
        · rw [if_neg h3] at h
          obtain ⟨x, hx, hrest⟩ := ih h
          exact ⟨x, List.mem_cons_of_mem _ hx, hrest⟩
    · rw [if_neg h1] at h
      obtain ⟨x, hx, hrest⟩ := ih h
      exact ⟨x, List.mem_cons_of_mem _ hx, hrest⟩

theorem C9_vprop_meta_whole_name_witness :
    ∃ m ∈ ["TYPE=WORK".toList], ciEq (m.take 4) "TYPE".toList = true ∧
      (m.length = 4 ∨ m.get? 4 = some '=') := by
  have h := C9_vprop_meta_whole_name.1 ["TYPE=WORK".toList] "TYPE".toList (by decide)
  simpa using h

mutual

theorem vprop_dup_eq : ∀ (p : VProp), vprop_dup p = p
  | .mk k v subs => by rw [vprop_dup, dupSubs_eq subs]

theorem dupSubs_eq : ∀ (l : List VProp), dupSubs l = l
  | [] => rfl
  | p :: ps => by rw [dupSubs, vprop_dup_eq p, dupSubs_eq ps]

end

/-- C8: `vobject_dup_root` copies the type, deep-copies the property
list in order (`vprop_dup` preserves key, value and the full metadata
list of every property), and attaches no children (and, being freshly
allocated, no parent). -/
theorem C8_vobject_dup_root :
    (∀ s : VObject, vobject_dup_root s = .mk s.vtype s.props []) ∧
    (∀ p : VProp, vprop_dup p = p) := by
  constructor
  · intro s
    match s with
    | .mk t props children => rw [vobject_dup_root, dupSubs_eq props]; rfl
  · exact vprop_dup_eq

/-- C2 counterexample: on input that ends while a document is still
open, `vobject_next` does not return none — it returns the partially
built document (here `BEGIN:VCARD` followed by end of stream yields the
open, empty VCARD object). -/
theorem C2_counterexample :
    vobject_next (strList ["BEGIN:VCARD", "FN:x"]) = some (.mk "VCARD".toList [] []) ∧
    vobject_next (strList ["BEGIN:VCARD", "FN:x"]) ≠ none := by
  refine ⟨by rfl, ?_⟩
  intro h
  rw [show vobject_next (strList ["BEGIN:VCARD", "FN:x"])
      = some (.mk "VCARD".toList [] []) from rfl] at h
  exact Option.noConfusion h

/-- C2 amended: when the stream ends while a document is still open,
`vobject_next` reports the unexpected-EOF condition and returns the
partially built *innermost* open document (it is not freed and the call
does not return none); end-of-stream with nothing pending returns none
with no diagnostic. -/
theorem C2_unexpected_eof :
    (∀ (saved : List Char) (f : Frame) (r : List Frame),
        vobject_next_go [] saved (f :: r) = some f.close ∧
        vobject_next_events [] saved (f :: r) = [.unexpectedEOF]) ∧
    (∀ saved : List Char, vobject_next_go [] saved [] = none ∧
        vobject_next_events [] saved [] = []) ∧
    vobject_next [] = none := by
  exact ⟨fun saved f r => ⟨rfl, rfl⟩, fun saved => ⟨rfl, rfl⟩, rfl⟩

/-- C10: a line that is empty after stripping trailing `\r\n\v\f`
satisfies the continuation test (the `strchr("\t ", *line)` test matches
the empty line's terminating NUL); with nothing pending it is reported
as a bad line and skipped — the parse state (stack of open blocks,
pending accumulator) is unchanged, so no property is produced and no
block opens or closes. -/
theorem C10_empty_line_bad_continuation :
    ∀ (raw : List Char) (rest : List (List Char)) (stack : List Frame),
      stripEOL raw = [] →
        isCont (stripEOL raw) = true ∧
        vobject_next_go (raw :: rest) [] stack = vobject_next_go rest [] stack ∧
        vobject_next_events (raw :: rest) [] stack
          = .badLine :: vobject_next_events rest [] stack := by
  intro raw rest stack h
  refine ⟨by rw [h]; rfl, ?_, ?_⟩
  · rw [vobject_next_go, h]
    rfl
  · rw [vobject_next_events, h]
    rfl

theorem C10_empty_line_bad_continuation_witness :
    isCont (stripEOL ['\r', '\n']) = true ∧
    vobject_next_go (['\r', '\n'] :: strList ["BEGIN:X", "END:X"]) [] []
      = vobject_next_go (strList ["BEGIN:X", "END:X"]) [] [] ∧
    vobject_next_events (['\r', '\n'] :: strList ["BEGIN:X", "END:X"]) [] []
      = .badLine :: vobject_next_events (strList ["BEGIN:X", "END:X"]) [] [] :=
  C10_empty_line_bad_continuation ['\r', '\n'] (strList ["BEGIN:X", "END:X"]) [] (by rfl)

theorem endColon_eq : endColon = ['E', 'N', 'D', ':'] := rfl

theorem ciEq_refl (a : List Char) : ciEq a a = true := by
  simp [ciEq]

theorem isCont_endColon (u : List Char) : isCont (endColon ++ u) = false := rfl

theorem drop4_endColon (u : List Char) : (endColon ++ u).drop 4 = u := rfl

theorem startsWithCI_endColon_self (u : List Char) :
    startsWithCI endColon (endColon ++ u) = true := by
  simp [startsWithCI, endColon_eq, List.take, ciEq]

theorem startsWithCI_beginColon_endColon (u : List Char) :
    startsWithCI beginColon (endColon ++ u) = false := by
  simp [startsWithCI, beginColon, endColon_eq, List.take, ciEq, asciiLower]

theorem strchresc_endColon (u : List Char) :
    strchresc (endColon ++ u) ':' = some 3 := by
  simp [strchresc, endColon_eq, strchrescAux, isQuote]

theorem strtovprop_endColon (u : List Char) :
    strtovprop (endColon ++ u) = .mk "END".toList (some u) [] := by
  rw [strtovprop]
  simp only [strchresc_endColon]
  norm_num [endColon_eq, List.take, List.drop]
  rfl

theorem flushSaved_cons (saved : List Char) (f : Frame) (r : List Frame) :
    flushSaved saved (f :: r)
      = (if saved.isEmpty then f
         else ⟨f.ftype, f.fprops ++ [strtovprop saved], f.fchildren⟩) :: r := by
  rw [flushSaved]
  by_cases h : saved.isEmpty
  · simp [h]
  · simp [h]

/-- C3: with a document of type `T` open, a physical line `END:U` whose
`U` does not case-insensitively equal `T` neither closes the block nor
signals an error: the parse step keeps the whole stack of open blocks
(only flushing the previously pending property into the still-open
document) and makes `END:U` the new pending line, which `strtovprop`
turns into a property with name `END` and value `U`; e.g.
`BEGIN:A / END:B / END:A` parses to a document of type `A` with the
single property `END:B`. -/
theorem C3_mismatched_end_is_property :
    ∀ (u raw : List Char) (rest : List (List Char)) (saved : List Char)
      (f : Frame) (r : List Frame),
      stripEOL raw = endColon ++ u →
      ciEq u f.ftype = false →
        vobject_next_go (raw :: rest) saved (f :: r)
          = vobject_next_go rest (endColon ++ u) (flushSaved saved (f :: r)) ∧
        vobject_next_events (raw :: rest) saved (f :: r)
          = vobject_next_events rest (endColon ++ u) (flushSaved saved (f :: r)) ∧
        flushSaved saved (f :: r)
          = (if saved.isEmpty then f
             else ⟨f.ftype, f.fprops ++ [strtovprop saved], f.fchildren⟩) :: r ∧
        strtovprop (endColon ++ u) = .mk "END".toList (some u) [] ∧
        vobject_next (strList ["BEGIN:A", "END:B", "END:A"])
          = some (.mk "A".toList [.mk "END".toList (some "B".toList) []] []) := by
  intro u raw rest saved f r hstrip hci
  have hstack := flushSaved_cons saved f r
  have hftype : ∀ g, flushSaved saved (f :: r) = g :: r → g.ftype = f.ftype := by
    intro g hg
    rw [hstack] at hg
    by_cases h : saved.isEmpty
    · rw [if_pos h] at hg
      cases hg
      rfl
    · rw [if_neg h] at hg
      cases hg
      rfl
  refine ⟨?_, ?_, hstack, strtovprop_endColon u, by rfl⟩
  · rw [vobject_next_go]
    simp only [hstrip, isCont_endColon, Bool.false_eq_true, if_false,
      startsWithCI_beginColon_endColon, hstack]
    rw [startsWithCI_endColon_self, drop4_endColon]
    have : ciEq u (if saved.isEmpty then f
        else Frame.mk f.ftype (f.fprops ++ [strtovprop saved]) f.fchildren).ftype = false := by
      by_cases h : saved.isEmpty
      · simpa [h] using hci
      · simpa [h] using hci
    rw [this]
    simp
  · rw [vobject_next_events]
    simp only [hstrip, isCont_endColon, Bool.false_eq_true, if_false,
      startsWithCI_beginColon_endColon, hstack]
    rw [startsWithCI_endColon_self, drop4_endColon]
    have : ciEq u (if saved.isEmpty then f
        else Frame.mk f.ftype (f.fprops ++ [strtovprop saved]) f.fchildren).ftype = false := by
      by_cases h : saved.isEmpty
      · simpa [h] using hci
      · simpa [h] using hci
    rw [this]
    simp

theorem C3_mismatched_end_is_property_witness :
    vobject_next_go ("END:B".toList :: ["END:A".toList]) [] [⟨"A".toList, [], []⟩]
        = vobject_next_go ["END:A".toList] (endColon ++ "B".toList)
            (flushSaved [] [⟨"A".toList, [], []⟩]) ∧
    vobject_next_events ("END:B".toList :: ["END:A".toList]) [] [⟨"A".toList, [], []⟩]
        = vobject_next_events ["END:A".toList] (endColon ++ "B".toList)
            (flushSaved [] [⟨"A".toList, [], []⟩]) ∧
    flushSaved [] [⟨"A".toList, [], []⟩]
        = (if ([] : List Char).isEmpty then Frame.mk "A".toList [] []
           else ⟨"A".toList, [] ++ [strtovprop []], []⟩) :: [] ∧
    strtovprop (endColon ++ "B".toList) = .mk "END".toList (some "B".toList) [] ∧
    vobject_next (strList ["BEGIN:A", "END:B", "END:A"])
        = some (.mk "A".toList [.mk "END".toList (some "B".toList) []] []) :=
  C3_mismatched_end_is_property "B".toList "END:B".toList ["END:A".toList] []
    ⟨"A".toList, [], []⟩ [] (by rfl) (by decide)

mutual

theorem write2_v0_columns : ∀ (o : VObject0) (c1 c2 : Nat), c1 ≠ 0 → c2 ≠ 0 →
    vobject_write2_v0 o c1 = vobject_write2_v0 o c2
  | .mk t props children, c1, c2, h1, h2 => by
    rw [vobject_write2_v0, vobject_write2_v0,
        writeChildren_v0_columns children c1 c2 h1 h2]
    simp [h1, h2]

theorem writeChildren_v0_columns : ∀ (cs : List VObject0) (c1 c2 : Nat), c1 ≠ 0 → c2 ≠ 0 →
    writeChildren_v0 cs c1 = writeChildren_v0 cs c2
  | [], _, _, _, _ => rfl
  | c :: cs, c1, c2, h1, h2 => by
    rw [writeChildren_v0, writeChildren_v0, write2_v0_columns c c1 c2 h1 h2,
        writeChildren_v0_columns cs c1 c2 h1 h2]

end

/-- C4 counterexample: the fold width does not follow the `columns`
argument.  With `columns = 10` the claim demands that the 15-byte
property line `K:xxxxxxxxxxxxx` be split into a 10-byte first segment
plus a continuation; `vobject_write2` emits it as one unsplit 15-byte
physical line (the fold sizes are the literals 80/79 regardless of
`columns`). -/
theorem C4_counterexample :
    vobject_write2_v0 c4probe 10
      = [beginColon ++ "T".toList, "K:xxxxxxxxxxxxx".toList, endColon ++ "T".toList] ∧
    ¬ (("K:xxxxxxxxxxxxx".toList).length ≤ 10) := by
  exact ⟨rfl, by decide⟩

theorem foldSegsFuel_v0_eq : ∀ (fuel : Nat) (rem : List Char) (first : Bool),
    foldSegsFuel false fuel rem first = foldSegsFuel_v0 fuel rem first := by
  intro fuel
  induction fuel with
  | zero =>
    intro rem first
    match rem with
    | [] => rfl
    | x :: xs => rfl
  | succ fuel ih =>
    intro rem first
    match rem with
    | [] => rfl
    | x :: xs =>
      simp only [foldSegsFuel, foldSegsFuel_v0, Bool.false_eq_true, if_false]
      have htodo : (if (x :: xs).length ≤ (if first then 80 else 79) then (x :: xs).length
            else (if first then 80 else 79))
          = (if (x :: xs).length < (if first then 80 else 79) then (x :: xs).length
            else (if first then 80 else 79)) := by
        by_cases h1 : (x :: xs).length < (if first then 80 else 79)
        · rw [if_pos h1, if_pos (Nat.le_of_lt h1)]
        · by_cases h2 : (x :: xs).length ≤ (if first then 80 else 79)
          · have : (x :: xs).length = (if first then 80 else 79) := by omega
            rw [if_pos h2, if_neg h1, this]
          · rw [if_neg h2, if_neg h1]
      rw [htodo, ih]

theorem foldSegsFuel_v0_cont : ∀ (fuel : Nat) (rem : List Char),
    ∀ seg ∈ foldSegsFuel_v0 fuel rem false,
      ∃ chunk, seg = ' ' :: chunk ∧ chunk.length ≤ 79 := by
  intro fuel
  induction fuel with
  | zero =>
    intro rem seg h
    match rem with
    | [] => simp [foldSegsFuel_v0] at h
    | x :: xs => simp [foldSegsFuel_v0] at h
  | succ fuel ih =>
    intro rem seg h
    match rem with
    | [] => simp [foldSegsFuel_v0] at h
    | x :: xs =>
      simp only [foldSegsFuel_v0, Bool.false_eq_true, if_false, List.mem_cons] at h
      rcases h with h | h
      · refine ⟨(x :: xs).take (if (x :: xs).length < 79 then (x :: xs).length
            else 79), by simpa using h, ?_⟩
        rw [List.length_take]
        rcases Nat.lt_or_ge (x :: xs).length 79 with h1 | h1
        · rw [if_pos h1]
          omega
        · rw [if_neg (by omega)]
          omega
      · exact ih _ seg h

theorem foldSegs_v0_head (l : List Char) (h : l ≠ []) :
    (foldSegs_v0 l).head? = some (l.take 80) := by
  match l with
  | [] => exact absurd rfl h
  | x :: xs =>
    show (foldSegsFuel_v0 (x :: xs).length (x :: xs) true).head? = _
    rw [show (x :: xs).length = xs.length + 1 from rfl]
    simp only [foldSegsFuel_v0, List.head?_cons, if_true]
    rcases Nat.lt_or_ge (x :: xs).length 80 with h1 | h1
    · rw [if_pos h1, List.take_of_length_le (Nat.le_refl _),
          List.take_of_length_le (by omega)]
      simp
    · rw [if_neg (by omega)]
      simp

/-- C4 amended: folding (any nonzero `columns` in the `vobject.c`
writer; flags without VOF_NOBREAK in the `vcardfilter.c` one — both
loops produce identical segments) always uses the fixed widths 80 for
the first physical segment and 79 for every continuation segment, which
gets one leading space, ignoring the requested width; in particular a
property line of exactly 81 bytes written with `columns = 80` produces
exactly two physical lines, the second being one space followed by the
one byte that did not fit. -/
theorem C4_fold_fixed_80_79 :
    (∀ (o : VObject0) (c1 c2 : Nat), c1 ≠ 0 → c2 ≠ 0 →
        vobject_write2_v0 o c1 = vobject_write2_v0 o c2) ∧
    (∀ l : List Char, foldSegs false l = foldSegs_v0 l) ∧
    (∀ l : List Char, l ≠ [] → (foldSegs_v0 l).head? = some (l.take 80)) ∧
    (∀ l : List Char, ∀ seg ∈ (foldSegs_v0 l).tail,
        ∃ chunk, seg = ' ' :: chunk ∧ chunk.length ≤ 79) ∧
    (vobject_write2_v0 (.mk "T".toList [⟨"K".toList, [], some (List.replicate 79 'a')⟩] []) 80
      = [beginColon ++ "T".toList, "K:".toList ++ List.replicate 78 'a', [' ', 'a'],
         endColon ++ "T".toList]) := by
  refine ⟨?_, ?_, foldSegs_v0_head, ?_, by rfl⟩
  · exact fun o c1 c2 h1 h2 => write2_v0_columns o c1 c2 h1 h2
  · intro l
    rw [foldSegs, foldSegs_v0, foldSegsFuel_v0_eq]
  · intro l seg h
    match hl : l with
    | [] => simp [foldSegs_v0, foldSegsFuel_v0] at h
    | x :: xs =>
      rw [foldSegs_v0, show (x :: xs).length = xs.length + 1 from rfl] at h
      simp only [foldSegsFuel_v0, List.tail_cons] at h
      exact foldSegsFuel_v0_cont _ _ seg h

theorem C4_fold_fixed_80_79_witness :
    vobject_write2_v0 c4probe 10 = vobject_write2_v0 c4probe 80 ∧
    (foldSegs_v0 "AB:cd".toList).head? = some (("AB:cd".toList).take 80) ∧
    (∃ chunk, (' ' :: List.replicate 5 'z') = ' ' :: chunk ∧ chunk.length ≤ 79) :=
  ⟨C4_fold_fixed_80_79.1 c4probe 10 80 (by decide) (by decide),
   C4_fold_fixed_80_79.2.2.1 "AB:cd".toList (by decide),
   C4_fold_fixed_80_79.2.2.2.1 (List.replicate 85 'z') (' ' :: List.replicate 5 'z')
     (by decide)⟩

theorem strchrescAux_append (c : Char) (a b : List Char) (esc : Option Char) :
    strchrescAux c (a ++ b) esc 0
      = (match strchrescAux c a esc 0 with
         | some i => some i
         | none => (strchrescAux c b (escStateFrom esc a) 0).map (· + a.length)) := by
  induction a generalizing esc with
  | nil => simp [strchrescAux, escStateFrom]
  | cons ch rest ih =>
    have hshift : ∀ (s : List Char) (e : Option Char),
        strchrescAux c s e 1 = (strchrescAux c s e 0).map (· + 1) :=
      fun s e => strchrescAux_shift c s e 1
    match esc with
    | some q =>
      rw [List.cons_append, strchrescAux, strchrescAux, hshift, hshift, ih]
      have hesc : escStateFrom (some q) (ch :: rest)
          = escStateFrom (if ch == q then none else some q) rest := by
        simp [escStateFrom, escStep]
      rw [hesc]
      cases strchrescAux c rest (if ch == q then none else some q) 0 with
      | none =>
        simp only [Option.map_none]
        cases strchrescAux c b (escStateFrom (if ch == q then none else some q) rest) 0 with
        | none => rfl
        | some k =>
          simp [Nat.add_assoc]
      | some i => rfl
    | none =>
      rw [List.cons_append, strchrescAux, strchrescAux]
      by_cases hc : ch = c
      · simp [hc]
      · simp only [beq_iff_eq, hc, if_false]
        rw [hshift, hshift, ih]
        have hesc : escStateFrom none (ch :: rest)
            = escStateFrom (if isQuote ch then some ch else none) rest := by
          simp [escStateFrom, escStep]
        rw [hesc]
        cases strchrescAux c rest (if isQuote ch then some ch else none) 0 with
        | none =>
          simp only [Option.map_none]
          cases strchrescAux c b (escStateFrom (if isQuote ch then some ch else none) rest) 0 with
          | none => rfl
          | some k =>
            simp [Nat.add_assoc]
        | some i => rfl

theorem passes_nil (c : Char) : Passes c [] := ⟨rfl, rfl⟩

theorem strchresc_append_passes (c : Char) (a b : List Char) (h : Passes c a) :
    strchresc (a ++ b) c = (strchresc b c).map (· + a.length) := by
  have h1 : strchrescAux c a none 0 = none := h.1
  have h2 : escStateFrom none a = none := h.2
  rw [strchresc, strchrescAux_append, h1, h2]
  rfl

theorem passes_append (c : Char) (a b : List Char) (ha : Passes c a) (hb : Passes c b) :
    Passes c (a ++ b) := by
  constructor
  · rw [strchresc_append_passes c a b ha, hb.1]
    rfl
  · show escStateFrom none (a ++ b) = none
    rw [escStateFrom, List.foldl_append]
    have : List.foldl escStep none a = none := ha.2
    rw [this]
    exact hb.2

theorem passes_clean (c : Char) (a : List Char)
    (h : ∀ x ∈ a, x ≠ c ∧ isQuote x = false) : Passes c a := by
  induction a with
  | nil => exact passes_nil c
  | cons ch rest ih =>
    have hch := h ch (List.mem_cons_self _ _)
    have hr := ih (fun x hx => h x (List.mem_cons_of_mem _ hx))
    constructor
    · rw [strchresc, strchrescAux]
      simp only [beq_iff_eq, hch.1, if_false, hch.2, Bool.false_eq_true]
      rw [strchrescAux_shift]
      rw [show strchrescAux c rest none 0 = strchresc rest c from rfl, hr.1]
      rfl
    · show escStateFrom none (ch :: rest) = none
      rw [show escStateFrom none (ch :: rest)
          = escStateFrom (escStep none ch) rest from rfl]
      rw [show escStep none ch = none by simp [escStep, hch.2]]
      exact hr.2

theorem passes_quoted (c q : Char) (v : List Char) (hq : isQuote q = true)
    (hc : isQuote c = false) (hv : ∀ x ∈ v, isQuote x = false) :
    Passes c (q :: (v ++ [q])) := by
  have hqc : q ≠ c := by
    intro h
    rw [h] at hq
    rw [hq] at hc
    exact Bool.noConfusion hc
  constructor
  · rw [strchresc, strchrescAux]
    simp only [beq_iff_eq, hqc, if_false, hq, if_true]
    rw [strchrescAux_shift]
    suffices h : strchrescAux c (v ++ [q]) (some q) 0 = none by
      rw [h]; rfl
    clear hc
    induction v with
    | nil =>
      rw [List.nil_append, strchrescAux]
      simp [strchrescAux]
    | cons x xs ih =>
      have hx : (x == q) = false := by
        have := hv x (List.mem_cons_self _ _)
        cases hxq : x == q
        · rfl
        · rw [show x = q from beq_iff_eq.mp hxq] at this
          rw [this] at hq
          exact Bool.noConfusion hq
      rw [List.cons_append, strchrescAux, hx]
      simp only [Bool.false_eq_true, if_false]
      rw [strchrescAux_shift]
      rw [ih (fun y hy => hv y (List.mem_cons_of_mem _ hy))]
      rfl
  · show escStateFrom none (q :: (v ++ [q])) = none
    rw [show escStateFrom none (q :: (v ++ [q]))
        = escStateFrom (escStep none q) (v ++ [q]) from rfl]
    rw [show escStep none q = some q by simp [escStep, hq]]
    rw [escStateFrom, List.foldl_append]
    have hmid : List.foldl escStep (some q) v = some q := by
      induction v with
      | nil => rfl
      | cons x xs ih =>
        have hx : (x == q) = false := by
          have := hv x (List.mem_cons_self _ _)
          cases hxq : x == q
          · rfl
          · rw [show x = q from beq_iff_eq.mp hxq] at this
            rw [this] at hq
            exact Bool.noConfusion hq
        rw [List.foldl_cons, show escStep (some q) x = some q by simp [escStep, hx]]
        exact ih (fun y hy => hv y (List.mem_cons_of_mem _ hy))
    rw [hmid]
    simp [List.foldl_cons, escStep]

/-! ### Parse-of-print for one property line -/

theorem strchresc_lt (s : List Char) (c : Char) (j : Nat) (h : strchresc s c = some j) :
    j < s.length := by
  have hspec := strchrescAux_spec c s none j h
  by_contra hge
  rw [List.get?_eq_none.mpr (by omega)] at hspec
  exact Option.noConfusion hspec.2

theorem splitMetaSegsFuel_mono : ∀ (f1 f2 : Nat) (s : List Char),
    s.length ≤ f1 → s.length ≤ f2 → splitMetaSegsFuel f1 s = splitMetaSegsFuel f2 s := by
  intro f1
  induction f1 with
  | zero =>
    intro f2 s h1 h2
    have hs : s = [] := List.length_eq_zero.mp (by omega)
    subst hs
    match f2 with
    | 0 => rfl
    | k + 1 => rfl
  | succ f1 ih =>
    intro f2 s h1 h2
    match f2 with
    | 0 =>
      have hs : s = [] := List.length_eq_zero.mp (by omega)
      subst hs
      rfl
    | k + 1 =>
      rw [splitMetaSegsFuel, splitMetaSegsFuel]
      match hsc : strchresc s ';' with
      | none => rfl
      | some i =>
        have hlt := strchresc_lt s ';' i hsc
        show List.take i s :: splitMetaSegsFuel f1 (s.drop (i + 1))
            = List.take i s :: splitMetaSegsFuel k (s.drop (i + 1))
        rw [ih k (s.drop (i + 1)) (by simp; omega) (by simp; omega)]

theorem splitMetaSegs_passes (s : List Char) (h : Passes ';' s) :
    splitMetaSegs s = [s] := by
  rw [splitMetaSegs]
  match hl : s.length with
  | 0 => rfl
  | k + 1 =>
    rw [splitMetaSegsFuel, h.1]

theorem splitMetaSegs_step (s : List Char) (i : Nat) (h : strchresc s ';' = some i) :
    splitMetaSegs s = s.take i :: splitMetaSegs (s.drop (i + 1)) := by
  have hlt := strchresc_lt s ';' i h
  rw [splitMetaSegs]
  match hl : s.length with
  | 0 => omega
  | k + 1 =>
    rw [splitMetaSegsFuel, h]
    show List.take i s :: splitMetaSegsFuel k (s.drop (i + 1))
        = List.take i s :: splitMetaSegs (s.drop (i + 1))
    rw [splitMetaSegs,
      splitMetaSegsFuel_mono k (s.drop (i + 1)).length (s.drop (i + 1)) (by simp; omega)
        (by omega)]

theorem passes_metaBody_semi (m : VProp) (hm : WFMeta m) : Passes ';' (metaBody m) := by
  obtain ⟨v, hv, hvne, hvq⟩ := hm.val_some
  rw [metaBody, hv]
  by_cases hbrk : strpbrkColonSemi v = true
  · simp only [hbrk, if_true]
    rw [show m.key ++ '=' :: '"' :: (v ++ ['"'])
        = (m.key ++ ['=']) ++ ('"' :: (v ++ ['"'])) from by simp]
    apply passes_append
    · apply passes_clean
      intro x hx
      rcases List.mem_append.mp hx with hx | hx
      · have := hm.key_ok x hx
        exact ⟨this.2.1, this.2.2.2.1⟩
      · rcases List.mem_singleton.mp hx with rfl
        exact ⟨by decide, by decide⟩
    · exact passes_quoted ';' '"' v (by decide) (by decide) (fun x hx => (hvq x hx).1)
  · simp only [hbrk, if_false]
    rw [show m.key ++ '=' :: v = (m.key ++ ['=']) ++ v from by simp]
    apply passes_append
    · apply passes_clean
      intro x hx
      rcases List.mem_append.mp hx with hx | hx
      · have := hm.key_ok x hx
        exact ⟨this.2.1, this.2.2.2.1⟩
      · rcases List.mem_singleton.mp hx with rfl
        exact ⟨by decide, by decide⟩
    · apply passes_clean
      intro x hx
      refine ⟨?_, (hvq x hx).1⟩
      intro hxe
      subst hxe
      rw [show strpbrkColonSemi v = true from
        List.any_eq_true.mpr ⟨';', hx, by decide⟩] at hbrk
      exact hbrk rfl

theorem passes_metaText_colon (m : VProp) (hm : WFMeta m) : Passes ':' (metaText m) := by
  obtain ⟨v, hv, hvne, hvq⟩ := hm.val_some
  rw [metaText, show (';' : Char) :: metaBody m = [';'] ++ metaBody m from rfl]
  apply passes_append
  · exact passes_clean _ _ (by decide)
  rw [metaBody, hv]
  by_cases hbrk : strpbrkColonSemi v = true
  · simp only [hbrk, if_true]
    rw [show m.key ++ '=' :: '"' :: (v ++ ['"'])
        = (m.key ++ ['=']) ++ ('"' :: (v ++ ['"'])) from by simp]
    apply passes_append
    · apply passes_clean
      intro x hx
      rcases List.mem_append.mp hx with hx | hx
      · have := hm.key_ok x hx
        exact ⟨this.1, this.2.2.2.1⟩
      · rcases List.mem_singleton.mp hx with rfl
        exact ⟨by decide, by decide⟩
    · exact passes_quoted ':' '"' v (by decide) (by decide) (fun x hx => (hvq x hx).1)
  · simp only [hbrk, if_false]
    rw [show m.key ++ '=' :: v = (m.key ++ ['=']) ++ v from by simp]
    apply passes_append
    · apply passes_clean
      intro x hx
      rcases List.mem_append.mp hx with hx | hx
      · have := hm.key_ok x hx
        exact ⟨this.1, this.2.2.2.1⟩
      · rcases List.mem_singleton.mp hx with rfl
        exact ⟨by decide, by decide⟩
    · apply passes_clean
      intro x hx
      refine ⟨?_, (hvq x hx).1⟩
      intro hxe
      subst hxe
      rw [show strpbrkColonSemi v = true from
        List.any_eq_true.mpr ⟨':', hx, by decide⟩] at hbrk
      exact hbrk rfl

theorem passes_metasText_colon (ms : List VProp) (hm : ∀ m ∈ ms, WFMeta m) :
    Passes ':' (ms.flatMap metaText) := by
  induction ms with
  | nil => exact passes_nil _
  | cons m rest ih =>
    rw [List.flatMap_cons]
    exact passes_append _ _ _ (passes_metaText_colon m (hm m (List.mem_cons_self _ _)))
      (ih fun x hx => hm x (List.mem_cons_of_mem _ hx))

theorem quoteStrip_noquote (v : List Char) (h : ∀ x ∈ v, isQuote x = false) :
    quoteStrip v = v := by
  match v with
  | [] => rfl
  | x :: xs =>
    rw [quoteStrip]
    simp only [List.head?_cons]
    match hlast : (x :: xs).getLast? with
    | none => rfl
    | some b =>
      show (if (isQuote x && (x == b)) = true then (List.drop 1 (x :: xs)).dropLast
          else x :: xs) = x :: xs
      rw [h x (List.mem_cons_self _ _)]
      rfl

theorem parseMetaSeg_metaBody : ∀ (m : VProp), WFMeta m → parseMetaSeg (metaBody m) = m
  | .mk k mv subs, hm => by
    obtain ⟨v, hv, hvne, hvq⟩ := hm.val_some
    have hsub : subs = [] := hm.sub_nil
    have hmv : mv = some v := hv
    subst hsub
    subst hmv
    have hkey : (VProp.mk k (some v) []).key = k := rfl
    have hkeq : ∀ (tail : List Char), strchresc (k ++ '=' :: tail) '='
        = some k.length := by
      intro tail
      rw [strchresc_append_passes '=' k ('=' :: tail)
        (passes_clean _ _ (fun x hx =>
          ⟨(hm.key_ok x hx).2.2.1, (hm.key_ok x hx).2.2.2.1⟩))]
      rw [show strchresc ('=' :: tail) '=' = some 0 from rfl]
      simp
    rw [metaBody]
    simp only [VProp.value, VProp.key]
    by_cases hbrk : strpbrkColonSemi v = true
    · simp only [hbrk, if_true]
      rw [parseMetaSeg, hkeq ('"' :: (v ++ ['"']))]
      show VProp.mk (List.take k.length (k ++ '=' :: '"' :: (v ++ ['"'])))
          (some (quoteStrip (List.drop (k.length + 1) (k ++ '=' :: '"' :: (v ++ ['"']))))) []
          = VProp.mk k (some v) []
      rw [List.take_left, show (k ++ '=' :: '"' :: (v ++ ['"'])).drop (k.length + 1)
          = '"' :: (v ++ ['"']) from by rw [List.drop_append]; rfl]
      have hqs : quoteStrip ('"' :: (v ++ ['"'])) = v := by
        rw [quoteStrip]
        simp only [List.head?_cons]
        rw [show ('"' :: (v ++ ['"'])).getLast? = some '"' from by
          rw [show '"' :: (v ++ ['"']) = ('"' :: v) ++ ['"'] from by simp,
            List.getLast?_append_of_ne_nil ('"' :: v) (by simp)]
          rfl]
        show (if (isQuote '"' && ('"' == '"')) = true
            then (List.drop 1 ('"' :: (v ++ ['"']))).dropLast else '"' :: (v ++ ['"'])) = v
        rw [if_pos (by decide)]
        simp only [List.drop_one, List.tail_cons, List.dropLast_concat]
      rw [hqs]
    · rw [if_neg hbrk]
      rw [parseMetaSeg, hkeq v]
      show VProp.mk (List.take k.length (k ++ '=' :: v))
          (some (quoteStrip (List.drop (k.length + 1) (k ++ '=' :: v)))) []
          = VProp.mk k (some v) []
      rw [List.take_left, show (k ++ '=' :: v).drop (k.length + 1) = v from by
        rw [List.drop_append]; rfl]
      rw [quoteStrip_noquote v (fun x hx => (hvq x hx).1)]

theorem map_parse_bodies (ms : List VProp) (h : ∀ x ∈ ms, WFMeta x) :
    (ms.map metaBody).map parseMetaSeg = ms := by
  induction ms with
  | nil => rfl
  | cons m rest ih =>
    rw [List.map_cons, List.map_cons, parseMetaSeg_metaBody m (h m (List.mem_cons_self _ _)),
      ih (fun x hx => h x (List.mem_cons_of_mem _ hx))]

theorem split_bodies : ∀ (m : VProp) (ms : List VProp), WFMeta m → (∀ x ∈ ms, WFMeta x) →
    splitMetaSegs (metaBody m ++ ms.flatMap metaText) = metaBody m :: ms.map metaBody := by
  intro m ms
  induction ms generalizing m with
  | nil =>
    intro hm _
    rw [List.flatMap_nil, List.append_nil,
      splitMetaSegs_passes _ (passes_metaBody_semi m hm), List.map_nil]
  | cons m2 ms ih =>
    intro hm hms
    rw [List.flatMap_cons, metaText,
      show metaBody m ++ ((';' :: metaBody m2) ++ ms.flatMap metaText)
        = metaBody m ++ ';' :: (metaBody m2 ++ ms.flatMap metaText) from by simp]
    have hsc : strchresc (metaBody m ++ ';' :: (metaBody m2 ++ ms.flatMap metaText)) ';'
        = some (metaBody m).length := by
      rw [strchresc_append_passes ';' _ _ (passes_metaBody_semi m hm),
        show strchresc (';' :: (metaBody m2 ++ ms.flatMap metaText)) ';' = some 0 from rfl]
      simp
    rw [splitMetaSegs_step _ _ hsc, List.take_left,
      show (metaBody m ++ ';' :: (metaBody m2 ++ ms.flatMap metaText)).drop
          ((metaBody m).length + 1) = metaBody m2 ++ ms.flatMap metaText from by
        rw [List.drop_append]; rfl,
      ih m2 (hms m2 (List.mem_cons_self _ _)) (fun x hx => hms x (List.mem_cons_of_mem _ hx)),
      List.map_cons]

theorem propLine_eq : ∀ (k : List Char) (v : List Char) (subs : List VProp),
    propLine (.mk k (some v) subs) = (k ++ subs.flatMap metaText) ++ ':' :: v := by
  intro k v subs
  rw [propLine]
  simp [VProp.key, VProp.sub, VProp.value, valueText]

theorem strtovprop_propLine : ∀ (T : List Char) (p : VProp), WFProp T p →
    strtovprop (propLine p) = p
  | T, .mk k mv subs, hp => by
    obtain ⟨v, hv, hvn, hve⟩ := hp.val_some
    have hmv : mv = some v := hv
    subst hmv
    have hmetas : ∀ m ∈ subs, WFMeta m := hp.metas
    have hkeyp : Passes ':' k :=
      passes_clean _ _ (fun x hx => ⟨(hp.key_ok x hx).1, (hp.key_ok x hx).2.2.1⟩)
    have hkeyps : Passes ';' k :=
      passes_clean _ _ (fun x hx => ⟨(hp.key_ok x hx).2.1, (hp.key_ok x hx).2.2.1⟩)
    have hsc : strchresc (propLine (.mk k (some v) subs)) ':'
        = some (k ++ subs.flatMap metaText).length := by
      rw [propLine_eq, strchresc_append_passes ':' _ _
          (passes_append _ _ _ hkeyp (passes_metasText_colon subs hmetas)),
        show strchresc (':' :: v) ':' = some 0 from rfl]
      simp
    rw [strtovprop]
    simp only [hsc]
    rw [propLine_eq, List.take_left,
      show ((k ++ subs.flatMap metaText) ++ ':' :: v).drop
          ((k ++ subs.flatMap metaText).length + 1) = v from by rw [List.drop_append]; rfl]
    match subs, hmetas with
    | [], _ =>
      rw [List.flatMap_nil, List.append_nil, hkeyps.1]
    | m :: ms, hmetas2 =>
      rw [List.flatMap_cons, metaText, List.cons_append]
      have hs2 : strchresc (k ++ ';' :: (metaBody m ++ ms.flatMap metaText)) ';'
          = some k.length := by
        rw [strchresc_append_passes ';' _ _ hkeyps,
          show strchresc (';' :: (metaBody m ++ ms.flatMap metaText)) ';'
            = some 0 from rfl]
        simp
      rw [hs2]
      show VProp.mk (List.take k.length (k ++ ';' :: (metaBody m ++ ms.flatMap metaText)))
          (some v)
          (List.map parseMetaSeg (splitMetaSegs
            (List.drop (k.length + 1) (k ++ ';' :: (metaBody m ++ ms.flatMap metaText)))))
          = VProp.mk k (some v) (m :: ms)
      rw [List.take_left,
        show (k ++ ';' :: (metaBody m ++ ms.flatMap metaText)).drop (k.length + 1)
          = metaBody m ++ ms.flatMap metaText from by rw [List.drop_append]; rfl,
        split_bodies m ms (hmetas2 m (List.mem_cons_self _ _))
          (fun x hx => hmetas2 x (List.mem_cons_of_mem _ hx)),
        List.map_cons,
        parseMetaSeg_metaBody m (hmetas2 m (List.mem_cons_self _ _)),
        map_parse_bodies ms (fun x hx => hmetas2 x (List.mem_cons_of_mem _ hx))]

/-! ### Parser steps over well-formed lines -/

theorem stripEOL_fix (l : List Char) (h : ∀ c, l.getLast? = some c → isEol c = false) :
    stripEOL l = l := by
  rw [stripEOL]
  match hrev : l.reverse with
  | [] =>
    rw [List.dropWhile_nil, ← hrev, List.reverse_reverse]
  | c :: t =>
    have hc : l.getLast? = some c := by
      rw [← List.head?_reverse, hrev]
      rfl
    rw [List.dropWhile_cons, h c hc]
    rw [if_neg (by simp), ← hrev, List.reverse_reverse]

theorem propLine_ne_nil (p : VProp) : propLine p ≠ [] := by
  rw [propLine]
  intro h
  rcases List.append_eq_nil.mp h with ⟨-, h2⟩
  exact List.noConfusion h2

theorem propLine_lastOk (T : List Char) (p : VProp) (hp : WFProp T p) :
    ∀ c, (propLine p).getLast? = some c → isEol c = false := by
  obtain ⟨v, hv, hvn, hve⟩ := hp.val_some
  intro c hc
  rw [propLine, hv, show valueText (some v) = v from rfl] at hc
  rw [show p.key ++ p.sub.flatMap metaText ++ ':' :: v
      = (p.key ++ p.sub.flatMap metaText) ++ ':' :: v from by simp] at hc
  rw [List.getLast?_append_of_ne_nil _ (by simp)] at hc
  match v, hve, hc with
  | [], _, hc =>
    have : c = ':' := by
      rw [show ([':'] : List Char).getLast? = some ':' from rfl] at hc
      exact (Option.some_inj.mp hc).symm
    subst this
    rfl
  | x :: xs, hve2, hc =>
    apply hve2
    rw [show (':' :: (x :: xs)) = [':'] ++ (x :: xs) from rfl,
      List.getLast?_append_of_ne_nil _ (by simp)] at hc
    exact hc

theorem stripEOL_propLine (T : List Char) (p : VProp) (hp : WFProp T p) :
    stripEOL (propLine p) = propLine p :=
  stripEOL_fix _ (propLine_lastOk T p hp)

theorem pre_type_lastOk (pre : List Char) (hpre : ∀ c, pre.getLast? = some c → isEol c = false)
    (U : List Char) (hU : WFType U) :
    ∀ c, (pre ++ U).getLast? = some c → isEol c = false := by
  intro c hc
  match U with
  | [] =>
    rw [List.append_nil] at hc
    exact hpre c hc
  | x :: xs =>
    rw [List.getLast?_append_of_ne_nil _ (by simp)] at hc
    exact hU.2 c hc

theorem stripEOL_beginType (U : List Char) (hU : WFType U) :
    stripEOL (beginColon ++ U) = beginColon ++ U :=
  stripEOL_fix _ (pre_type_lastOk beginColon (by decide) U hU)

theorem stripEOL_endType (U : List Char) (hU : WFType U) :
    stripEOL (endColon ++ U) = endColon ++ U :=
  stripEOL_fix _ (pre_type_lastOk endColon (by decide) U hU)

theorem startsWithCI_beginColon_self (U : List Char) :
    startsWithCI beginColon (beginColon ++ U) = true := by
  rw [startsWithCI, show (beginColon ++ U).take beginColon.length = beginColon from
    List.take_left beginColon U]
  simp [ciEq]

theorem isCont_beginColon (U : List Char) : isCont (beginColon ++ U) = false := rfl

theorem drop6_beginColon (U : List Char) : (beginColon ++ U).drop 6 = U := rfl

theorem flushSaved_pend (T : List Char) (pend : List Char) (pprops : List VProp)
    (f : Frame) (r : List Frame) (hf : f.ftype = T) (hp : PendFlushes T pend pprops) :
    flushSaved pend (f :: r) = (⟨T, f.fprops ++ pprops, f.fchildren⟩ : Frame) :: r := by
  rcases hp with ⟨hpe, hpr⟩ | ⟨q, hq, hpe, hpr⟩
  · subst hpe
    subst hpr
    show f :: r = (⟨T, f.fprops ++ [], f.fchildren⟩ : Frame) :: r
    cases f
    simp_all
  · subst hpe
    subst hpr
    rw [flushSaved, if_neg (by simp [propLine_ne_nil q])]
    rw [strtovprop_propLine T q hq]
    cases f
    simp_all

theorem go_step_cont (c : List Char) (rest : List (List Char)) (saved : List Char)
    (st : List Frame) (hs : saved ≠ []) (hstrip : stripEOL (' ' :: c) = ' ' :: c) :
    vobject_next_go ((' ' :: c) :: rest) saved st = vobject_next_go rest (saved ++ c) st := by
  rw [vobject_next_go]
  simp only [hstrip]
  rw [show isCont (' ' :: c) = true from rfl, if_pos rfl,
    if_neg (by simp [hs]), List.drop_one, List.tail_cons]

theorem go_conts (pieces : List (List Char)) (rest : List (List Char)) (saved : List Char)
    (st : List Frame) (hs : saved ≠ [])
    (hstrip : ∀ c ∈ pieces, stripEOL (' ' :: c) = ' ' :: c) :
    vobject_next_go (pieces.map (fun c => ' ' :: c) ++ rest) saved st
      = vobject_next_go rest (saved ++ pieces.flatten) st := by
  induction pieces generalizing saved with
  | nil => simp
  | cons c cs ih =>
    rw [List.map_cons, List.cons_append,
      go_step_cont c _ saved st hs (hstrip c (List.mem_cons_self _ _)),
      ih (saved ++ c) (by simp [hs]) (fun x hx => hstrip x (List.mem_cons_of_mem _ hx))]
    simp

theorem go_step_ordinary (l : List Char) (rest : List (List Char)) (saved : List Char)
    (stack : List Frame) (hstrip : stripEOL l = l) (hcont : isCont l = false)
    (hbegin : startsWithCI beginColon l = false)
    (hend : ∀ f r, flushSaved saved stack = f :: r →
      ¬(startsWithCI endColon l = true ∧ ciEq (l.drop 4) f.ftype = true)) :
    vobject_next_go (l :: rest) saved stack = vobject_next_go rest l (flushSaved saved stack) := by
  rw [vobject_next_go]
  simp only [hstrip]
  rw [hcont, if_neg (by simp), hbegin, if_neg (by simp)]
  match hfl : flushSaved saved stack with
  | [] => rfl
  | f :: r =>
    have hne : ¬((startsWithCI endColon l && ciEq (l.drop 4) f.ftype) = true) := by
      rw [Bool.and_eq_true]
      exact hend f r hfl
    simp only [hne, Bool.false_eq_true, if_false]

theorem go_step_begin (U : List Char) (rest : List (List Char)) (saved : List Char)
    (stack : List Frame) (hU : WFType U) :
    vobject_next_go ((beginColon ++ U) :: rest) saved stack
      = vobject_next_go rest [] (⟨U, [], []⟩ :: flushSaved saved stack) := by
  rw [vobject_next_go]
  simp only [stripEOL_beginType U hU]
  rw [isCont_beginColon, if_neg (by simp), startsWithCI_beginColon_self, if_pos rfl,
    drop6_beginColon]

theorem go_step_end_match (T : List Char) (rest : List (List Char)) (pend : List Char)
    (pprops : List VProp) (f : Frame) (r : List Frame) (hT : WFType T) (hf : f.ftype = T)
    (hp : PendFlushes T pend pprops) :
    vobject_next_go ((endColon ++ T) :: rest) pend (f :: r)
      = closeStep r rest (.mk T (f.fprops ++ pprops) f.fchildren) := by
  rcases r with _ | ⟨g, r2⟩ <;>
  · rw [vobject_next_go]
    simp only [stripEOL_endType T hT]
    rw [isCont_endColon, if_neg (by simp), startsWithCI_beginColon_endColon,
      if_neg (by simp), flushSaved_pend T pend pprops f _ hf hp]
    simp [startsWithCI_endColon_self, drop4_endColon, ciEq_refl, closeStep, Frame.close]

theorem go_block : ∀ (T : List Char) (body : List (List Char)) (ps : List VProp)
    (cs : List VObject), WFBody T body ps cs → WFType T →
    ∀ (pend : List Char) (pprops : List VProp) (f : Frame) (r : List Frame)
      (rest : List (List Char)), PendFlushes T pend pprops → f.ftype = T →
      vobject_next_go (body ++ (endColon ++ T) :: rest) pend (f :: r)
        = closeStep r rest
            (.mk T (f.fprops ++ pprops ++ ps) (f.fchildren ++ cs)) := by
  intro T body ps cs hbody
  induction hbody with
  | nil T =>
    intro hT pend pprops f r rest hp hf
    rw [List.nil_append, go_step_end_match T rest pend pprops f r hT hf hp]
    congr 1
    simp
  | prop T p phys rest2 ps cs hwf hsplit hrest ih =>
    intro hT pend pprops f r rest hp hf
    rcases hsplit with ⟨l0, pieces, hline, hl0ne, hl0cont, hl0begin, hl0end, hl0strip, hpstrip⟩
    rw [show (l0 :: pieces.map (fun c => ' ' :: c)) ++ rest2 ++ (endColon ++ T) :: rest
        = l0 :: (pieces.map (fun c => ' ' :: c)
            ++ (rest2 ++ (endColon ++ T) :: rest)) from by simp]
    rw [go_step_ordinary l0 _ pend (f :: r) hl0strip hl0cont hl0begin (by
      intro f2 r2 hf2
      rw [flushSaved_pend T pend pprops f r hf hp] at hf2
      cases hf2
      exact hl0end)]
    rw [flushSaved_pend T pend pprops f r hf hp]
    rw [go_conts pieces _ l0 _ hl0ne hpstrip]
    rw [← hline]
    rw [ih hT (propLine p) [p] ⟨T, f.fprops ++ pprops, f.fchildren⟩ r rest
      (Or.inr ⟨p, hwf, rfl, rfl⟩) rfl]
    congr 1
    simp
  | child T U cbody rest2 ps2 cs2 ps cs hU hcbody hrest ihc ihr =>
    intro hT pend pprops f r rest hp hf
    rw [show ((beginColon ++ U) :: (cbody ++ (endColon ++ U) :: rest2))
          ++ (endColon ++ T) :: rest
        = (beginColon ++ U)
          :: (cbody ++ (endColon ++ U) :: (rest2 ++ (endColon ++ T) :: rest)) from by simp]
    rw [go_step_begin U _ pend (f :: r) hU]
    rw [flushSaved_pend T pend pprops f r hf hp]
    rw [ihc hU [] [] ⟨U, [], []⟩
      (({ftype := T, fprops := f.fprops ++ pprops, fchildren := f.fchildren} : Frame) :: r)
      (rest2 ++ (endColon ++ T) :: rest) (Or.inl ⟨rfl, rfl⟩) rfl]
    rw [show closeStep
        (({ftype := T, fprops := f.fprops ++ pprops, fchildren := f.fchildren} : Frame) :: r)
        (rest2 ++ (endColon ++ T) :: rest)
        (VObject.mk U ((Frame.mk U [] []).fprops ++ [] ++ ps2) ((Frame.mk U [] []).fchildren ++ cs2))
      = vobject_next_go (rest2 ++ (endColon ++ T) :: rest) []
          (({ftype := T, fprops := f.fprops ++ pprops,
             fchildren := f.fchildren ++ [VObject.mk U ps2 cs2]} : Frame) :: r) from by
      rw [closeStep]
      simp]
    rw [ihr hT [] []
      ({ftype := T, fprops := f.fprops ++ pprops,
        fchildren := f.fchildren ++ [VObject.mk U ps2 cs2]} : Frame) r rest
      (Or.inl ⟨rfl, rfl⟩) rfl]
    congr 1
    simp

theorem go_top (T : List Char) (body : List (List Char)) (ps : List VProp) (cs : List VObject)
    (rest : List (List Char)) (hT : WFType T) (hbody : WFBody T body ps cs) :
    vobject_next ((beginColon ++ T) :: (body ++ (endColon ++ T) :: rest))
      = some (.mk T ps cs) := by
  rw [vobject_next, go_step_begin T _ [] [] hT]
  rw [show flushSaved [] [] = [] from rfl]
  rw [go_block T body ps cs hbody hT [] [] ⟨T, [], []⟩ [] rest (Or.inl ⟨rfl, rfl⟩) rfl]
  rw [show closeStep [] rest (VObject.mk T ((Frame.mk T [] []).fprops ++ [] ++ ps)
      ((Frame.mk T [] []).fchildren ++ cs)) = some (VObject.mk T ([] ++ [] ++ ps) ([] ++ cs))
    from rfl]
  simp

theorem wfobj_of_wfbody : ∀ (T : List Char) (body : List (List Char)) (ps : List VProp)
    (cs : List VObject), WFBody T body ps cs → WFType T → WFObj (.mk T ps cs) := by
  intro T body ps cs hbody
  induction hbody with
  | nil T =>
    intro hT
    exact WFObj.mk T [] [] hT (by simp) (by simp)
  | prop T p phys rest2 ps cs hwf hsplit hrest ih =>
    intro hT
    cases ih hT with
    | mk _ _ _ hT2 hp2 hc2 =>
      refine WFObj.mk T (p :: ps) cs hT ?_ hc2
      intro x hx
      rcases List.mem_cons.mp hx with rfl | hx
      · exact hwf
      · exact hp2 x hx
  | child T U cbody rest2 ps2 cs2 ps cs hU hcbody hrest ihc ihr =>
    intro hT
    cases ihr hT with
    | mk _ _ _ hT2 hp2 hc2 =>
      refine WFObj.mk T ps (VObject.mk U ps2 cs2 :: cs) hT hp2 ?_
      intro x hx
      rcases List.mem_cons.mp hx with rfl | hx
      · exact ihc hU
      · exact hc2 x hx

theorem wfbody_prepend_props : ∀ (T : List Char) (ps : List VProp) (ps2 : List VProp)
    (cs : List VObject) (rest : List (List Char)),
    (∀ p ∈ ps, WFProp T p) → WFBody T rest ps2 cs →
    WFBody T (ps.map propLine ++ rest) (ps ++ ps2) cs := by
  intro T ps
  induction ps with
  | nil =>
    intro ps2 cs rest h hrest
    simpa using hrest
  | cons p ps ih =>
    intro ps2 cs rest h hrest
    have hwp : WFProp T p := h p (List.mem_cons_self _ _)
    have hsplit : PhysSplit T (propLine p) [propLine p] := by
      have := @PhysSplit.mk T (propLine p) (propLine p) []
        (by simp) (propLine_ne_nil p) hwp.not_cont hwp.not_begin hwp.not_end
        (stripEOL_propLine T p hwp) (by simp)
      simpa using this
    have hbody := WFBody.prop T p [propLine p] (ps.map propLine ++ rest) (ps ++ ps2) cs
      hwp hsplit (ih ps2 cs rest (fun x hx => h x (List.mem_cons_of_mem _ hx)) hrest)
    simpa using hbody

theorem flatMap_nobreak (ps : List VProp) (u : Bool) :
    ps.flatMap (fun p => if (WriteFlags.mk true u).nobreak then [propLine p]
      else foldSegs (WriteFlags.mk true u).utf8 (propLine p)) = ps.map propLine := by
  induction ps with
  | nil => rfl
  | cons p ps ih =>
    rw [List.flatMap_cons, List.map_cons, ih]
    rfl

theorem write2_nobreak (t : List Char) (ps : List VProp) (cs : List VObject) (u : Bool) :
    vobject_write2 (.mk t ps cs) ⟨true, u⟩
      = (beginColon ++ t)
        :: ((ps.map propLine ++ writeChildren cs ⟨true, u⟩) ++ [endColon ++ t]) := by
  rw [vobject_write2, flatMap_nobreak]

theorem write_wfbody_children : ∀ (cs : List VObject), (∀ c ∈ cs, WFObj c) →
    ∀ (T : List Char) (u : Bool), WFBody T (writeChildren cs ⟨true, u⟩) [] cs
  | [], _, T, u => WFBody.nil T
  | .mk U ps2 cs2 :: cs, h, T, u => by
    have hobj := h _ (List.mem_cons_self _ _)
    cases hobj with
    | mk _ _ _ hU hp hc2 =>
      have hinner : WFBody U (ps2.map propLine ++ writeChildren cs2 ⟨true, u⟩) ps2 cs2 := by
        have := wfbody_prepend_props U ps2 [] cs2 (writeChildren cs2 ⟨true, u⟩) hp
          (write_wfbody_children cs2 hc2 U u)
        simpa using this
      have hrest := write_wfbody_children cs (fun x hx => h x (List.mem_cons_of_mem _ hx)) T u
      have hout := WFBody.child T U (ps2.map propLine ++ writeChildren cs2 ⟨true, u⟩)
        (writeChildren cs ⟨true, u⟩) ps2 cs2 [] cs hU hinner hrest
      rw [writeChildren, write2_nobreak]
      simpa using hout
termination_by cs => sizeOf cs
decreasing_by
  all_goals simp
  all_goals omega

theorem wfobj_roundtrip : ∀ (t : VObject), WFObj t → ∀ (u : Bool),
    vobject_next (vobject_write2 t ⟨true, u⟩) = some t
  | .mk T ps cs, hobj, u => by
    cases hobj with
    | mk _ _ _ hT hp hc =>
      rw [write2_nobreak]
      have hbody : WFBody T (ps.map propLine ++ writeChildren cs ⟨true, u⟩) ps cs := by
        have := wfbody_prepend_props T ps [] cs (writeChildren cs ⟨true, u⟩) hp
          (write_wfbody_children cs hc T u)
        simpa using this
      have := go_top T (ps.map propLine ++ writeChildren cs ⟨true, u⟩) ps cs [] hT hbody
      rw [show (ps.map propLine ++ writeChildren cs ⟨true, u⟩) ++ [endColon ++ T]
          = (ps.map propLine ++ writeChildren cs ⟨true, u⟩) ++ (endColon ++ T) :: [] from rfl]
      exact this

/-- C1: round trip — for every document tree produced by `vobject_next`
from well-formed input, serializing it with `vobject_write2` with folding
disabled (VOF_NOBREAK, any UTF-8 flag) and parsing the output again
yields a tree equal to the original: the same type, the same properties
in order with the same names, values and metadata entries in order, and
the same children in order (structural equality of the `VObject` tree). -/
theorem C1_parse_write_roundtrip :
    ∀ (ls : List (List Char)) (t : VObject) (u : Bool),
      WFInput ls → vobject_next ls = some t →
      vobject_next (vobject_write2 t ⟨true, u⟩) = some t := by
  intro ls t u hwf hparse
  obtain ⟨U, body, rest, ps, cs, hT, hbody, rfl⟩ := hwf
  rw [go_top U body ps cs rest hT hbody] at hparse
  have ht : t = .mk U ps cs := (Option.some_inj.mp hparse).symm
  subst ht
  exact wfobj_roundtrip _ (wfobj_of_wfbody U body ps cs hbody hT) u

theorem wfprop_fn : WFProp "VCARD".toList fnProp := by
  refine ⟨by decide, ⟨"John Doe".toList, rfl, by decide, by decide⟩, ?_, by decide, by decide,
    by decide⟩
  intro m hm
  exact absurd hm (List.not_mem_nil m)

theorem wfprop_email : WFProp "VCARD".toList scenarioEmail := by
  refine ⟨by decide, ⟨"john@example.com".toList, rfl, by decide, by decide⟩, ?_, by decide,
    by decide, by decide⟩
  intro m hm
  rcases List.mem_singleton.mp hm with rfl
  exact ⟨rfl, ⟨"WORK".toList, rfl, by decide, by decide⟩, by decide⟩

theorem wfinput_scenario : WFInput scenarioInput := by
  refine ⟨"VCARD".toList,
    ["FN:John Doe".toList, "EMAIL;TYPE=WORK:john@example.com".toList], [],
    [fnProp, scenarioEmail], [], ⟨by decide, by decide⟩, ?_, by decide⟩
  have hsplit : ∀ (p : VProp), WFProp "VCARD".toList p →
      PhysSplit "VCARD".toList (propLine p) [propLine p] := by
    intro p hp
    have := @PhysSplit.mk "VCARD".toList (propLine p) (propLine p) []
      (by simp) (propLine_ne_nil p) hp.not_cont hp.not_begin hp.not_end
      (stripEOL_propLine _ p hp) (by simp)
    simpa using this
  have h0 : WFBody "VCARD".toList [] [] [] := WFBody.nil _
  have h1 := WFBody.prop "VCARD".toList scenarioEmail [propLine scenarioEmail] []
    [] [] wfprop_email (hsplit _ wfprop_email) h0
  have h2 := WFBody.prop "VCARD".toList fnProp [propLine fnProp]
    ([propLine scenarioEmail] ++ []) [scenarioEmail] [] wfprop_fn (hsplit _ wfprop_fn) h1
  have hshape : ([propLine fnProp] ++ ([propLine scenarioEmail] ++ []))
      = ["FN:John Doe".toList, "EMAIL;TYPE=WORK:john@example.com".toList] := by decide
  rw [hshape] at h2
  exact h2

theorem C1_parse_write_roundtrip_witness :
    vobject_next (vobject_write2 scenarioDoc ⟨true, false⟩) = some scenarioDoc := by
  apply C1_parse_write_roundtrip scenarioInput scenarioDoc false wfinput_scenario
  rfl

theorem seg_append (h : Heap) (p : Nat) :
    ∀ (l1 l2 : List Nat) (s s2 : Option Nat × Option Nat),
      Seg h p s (l1 ++ l2) s2 ↔ ∃ m, Seg h p s l1 m ∧ Seg h p m l2 s2 := by
  intro l1
  induction l1 with
  | nil =>
    intro l2 s s2
    constructor
    · intro hs
      exact ⟨s, rfl, hs⟩
    · intro ⟨m, hm, hs⟩
      rw [show m = s from hm] at hs
      exact hs
  | cons a l1 ih =>
    intro l2 s s2
    constructor
    · intro hs
      obtain ⟨hcur, hpar, hprv, hrest⟩ := hs
      obtain ⟨m, hm1, hm2⟩ := (ih l2 _ s2).mp hrest
      exact ⟨m, ⟨hcur, hpar, hprv, hm1⟩, hm2⟩
    · intro ⟨m, ⟨hcur, hpar, hprv, hm1⟩, hm2⟩
      exact ⟨hcur, hpar, hprv, (ih l2 _ s2).mpr ⟨m, hm1, hm2⟩⟩

theorem seg_mem_par (h : Heap) (p : Nat) :
    ∀ (l : List Nat) (s s2 : Option Nat × Option Nat),
      Seg h p s l s2 → ∀ a ∈ l, h.par a = some p := by
  intro l
  induction l with
  | nil =>
    intro s s2 _ a ha
    exact absurd ha (List.not_mem_nil a)
  | cons b l ih =>
    intro s s2 hs a ha
    obtain ⟨hcur, hpar, hprv, hrest⟩ := hs
    rcases List.mem_cons.mp ha with rfl | ha
    · exact hpar
    · exact ih _ _ hrest a ha

theorem seg_frame (h h2 : Heap) (p : Nat) :
    ∀ (l : List Nat) (s s2 : Option Nat × Option Nat),
      Seg h p s l s2 →
      (∀ a ∈ l, h2.par a = h.par a ∧ h2.prv a = h.prv a ∧ h2.nxt a = h.nxt a) →
      Seg h2 p s l s2 := by
  intro l
  induction l with
  | nil =>
    intro s s2 hs _
    exact hs
  | cons a l ih =>
    intro s s2 hs hf
    obtain ⟨hcur, hpar, hprv, hrest⟩ := hs
    have ha := hf a (List.mem_cons_self _ _)
    refine ⟨hcur, ha.1.trans hpar, ha.2.1.trans hprv, ?_⟩
    rw [ha.2.2]
    exact ih _ _ hrest (fun x hx => hf x (List.mem_cons_of_mem _ hx))

theorem seg_out_prev (h : Heap) (p : Nat) :
    ∀ (l : List Nat) (s s2 : Option Nat × Option Nat),
      Seg h p s l s2 → (l = [] ∧ s2 = s) ∨ (l ≠ [] ∧ s2.1 = l.getLast?) := by
  intro l
  induction l with
  | nil =>
    intro s s2 hs
    exact Or.inl ⟨rfl, hs⟩
  | cons a l ih =>
    intro s s2 hs
    obtain ⟨hcur, hpar, hprv, hrest⟩ := hs
    refine Or.inr ⟨by simp, ?_⟩
    rcases ih _ _ hrest with ⟨rfl, rfl⟩ | ⟨hne, hlast⟩
    · simp
    · rw [hlast]
      match l, hne with
      | b :: l2, _ => rw [List.getLast?_cons_cons]

theorem seg_retarget (h h2 : Heap) (p : Nat) :
    ∀ (l : List Nat) (s : Option Nat × Option Nat) (prevE curE : Option Nat) (la : Nat),
      Seg h p s l (prevE, curE) → l.getLast? = some la → l.Nodup →
      (∀ a ∈ l, h2.par a = h.par a ∧ h2.prv a = h.prv a) →
      (∀ a ∈ l, a ≠ la → h2.nxt a = h.nxt a) →
      Seg h2 p s l (prevE, h2.nxt la) := by
  intro l
  induction l with
  | nil =>
    intro s prevE curE la hs hla
    exact absurd hla (by simp)
  | cons a l ih =>
    intro s prevE curE la hs hla hnd hf hnx
    obtain ⟨hcur, hpar, hprv, hrest⟩ := hs
    have ha := hf a (List.mem_cons_self _ _)
    match l, hrest, hla with
    | [], hrest, hla =>
      have hlaa : la = a := by
        rw [show ([a] : List Nat).getLast? = some a from rfl] at hla
        exact (Option.some_inj.mp hla).symm
      subst hlaa
      have hse : (prevE, curE) = (some la, h.nxt la) := hrest
      refine ⟨hcur, ha.1.trans hpar, ha.2.trans hprv, ?_⟩
      show (prevE, h2.nxt la) = (some la, h2.nxt la)
      rw [show prevE = some la from by
        have := congrArg Prod.fst hse
        simpa using this]
    | b :: l2, hrest, hla =>
      have hla2 : (b :: l2).getLast? = some la := by
        rw [← hla, List.getLast?_cons_cons]
      have hane : a ≠ la := by
        intro hEq
        subst hEq
        have hmem : a ∈ b :: l2 := by
          obtain ⟨hne2, heq⟩ := List.mem_getLast?_eq_getLast (Option.mem_def.mpr hla2)
          rw [heq]
          exact List.getLast_mem hne2
        exact (List.nodup_cons.mp hnd).1 hmem
      refine ⟨hcur, ha.1.trans hpar, ha.2.trans hprv, ?_⟩
      rw [hnx a (List.mem_cons_self _ _) hane]
      exact ih _ _ _ la hrest hla2 (List.nodup_cons.mp hnd).2
        (fun x hx => hf x (List.mem_cons_of_mem _ hx))
        (fun x hx hxa => hnx x (List.mem_cons_of_mem _ hx) hxa)

theorem seg_rehead (h h2 : Heap) (p : Nat) :
    ∀ (l : List Nat) (prevOld prevNew cur : Option Nat) (s2 : Option Nat × Option Nat)
      (hd : Nat),
      Seg h p (prevOld, cur) l s2 → l.head? = some hd → l.Nodup →
      (∀ a ∈ l, h2.par a = h.par a ∧ h2.nxt a = h.nxt a) →
      (∀ a ∈ l, a ≠ hd → h2.prv a = h.prv a) →
      h2.prv hd = prevNew →
      Seg h2 p (prevNew, cur) l s2 := by
  intro l prevOld prevNew cur s2 hd hs hhd hnd hf hpr hnew
  match l, hs, hhd with
  | a :: l, hs, hhd =>
    have haeq : a = hd := by
      rw [List.head?_cons] at hhd
      exact Option.some_inj.mp hhd
    subst haeq
    obtain ⟨hcur, hpar, hprv, hrest⟩ := hs
    have ha := hf a (List.mem_cons_self _ _)
    refine ⟨hcur, ha.1.trans hpar, hnew, ?_⟩
    rw [ha.2]
    refine seg_frame h h2 p l _ _ hrest ?_
    intro x hx
    have hxa : x ≠ a := by
      intro hEq
      subst hEq
      exact (List.nodup_cons.mp hnd).1 hx
    exact ⟨(hf x (List.mem_cons_of_mem _ hx)).1,
      hpr x (List.mem_cons_of_mem _ hx) hxa,
      (hf x (List.mem_cons_of_mem _ hx)).2⟩

theorem seg_prv_mem (h : Heap) (p : Nat) :
    ∀ (l : List Nat) (s s2 : Option Nat × Option Nat),
      Seg h p s l s2 → ∀ a ∈ l, h.prv a = s.1 ∨ ∃ q ∈ l, h.prv a = some q := by
  intro l
  induction l with
  | nil =>
    intro s s2 hs a ha
    exact absurd ha (List.not_mem_nil a)
  | cons b l ih =>
    intro s s2 hs a ha
    obtain ⟨hcur, hpar, hprv, hrest⟩ := hs
    rcases List.mem_cons.mp ha with rfl | ha
    · exact Or.inl hprv
    · rcases ih _ _ hrest a ha with hp | ⟨q, hq, hpq⟩
      · exact Or.inr ⟨b, List.mem_cons_self _ _, hp⟩
      · exact Or.inr ⟨q, List.mem_cons_of_mem _ hq, hpq⟩

theorem seg_nxt_mem (h : Heap) (p : Nat) :
    ∀ (l : List Nat) (s s2 : Option Nat × Option Nat),
      Seg h p s l s2 → ∀ a ∈ l, h.nxt a = s2.2 ∨ ∃ q ∈ l, h.nxt a = some q := by
  intro l
  induction l with
  | nil =>
    intro s s2 hs a ha
    exact absurd ha (List.not_mem_nil a)
  | cons b l ih =>
    intro s s2 hs a ha
    obtain ⟨hcur, hpar, hprv, hrest⟩ := hs
    rcases List.mem_cons.mp ha with rfl | ha
    · match l, hrest with
      | [], hrest =>
        left
        rw [show s2 = (some a, h.nxt a) from hrest]
      | c :: l2, hrest =>
        right
        exact ⟨c, List.mem_cons_of_mem _ (List.mem_cons_self _ _), hrest.1.symm ▸ hrest.1⟩
    · rcases ih _ _ hrest a ha with hp | ⟨q, hq, hpq⟩
      · exact Or.inl hp
      · exact Or.inr ⟨q, List.mem_cons_of_mem _ hq, hpq⟩

theorem detach_eq (h : Heap) (vo p : Nat) (hp : h.par vo = some p) :
    vobject_detach h vo =
      { par := fun a => if a = vo then none else h.par a,
        nxt := fun a => if a = vo then none
          else if h.prv vo = some a then h.nxt vo else h.nxt a,
        prv := fun a => if a = vo then none
          else if h.nxt vo = some a then h.prv vo else h.prv a,
        fst := fun q => if q = p then (if h.fst p = some vo then h.nxt vo else h.fst p)
          else h.fst q,
        lst := fun q => if q = p then (if h.lst p = some vo then h.prv vo else h.lst p)
          else h.lst q } := by
  rw [vobject_detach, hp]
  by_cases hf : h.fst p = some vo <;>
    by_cases hl : h.lst p = some vo <;>
      rcases hpv : h.prv vo with _ | q1 <;>
        rcases hnv : h.nxt vo with _ | q2 <;>
          · refine Heap.ext (funext fun x => ?_) (funext fun x => ?_) (funext fun x => ?_)
              (funext fun x => ?_) (funext fun x => ?_) <;>
              simp only [hf, hl, hpv, hnv, if_true, if_false, upd] <;>
              split_ifs <;>
              (try simp_all [upd]) <;>
              (intro h9; omega)

theorem attach_eq (h0 : Heap) (obj parent : Nat) :
    vobject_attach h0 obj parent =
      { par := fun a => if a = obj then some parent else (vobject_detach h0 obj).par a,
        prv := fun a => if a = obj then (vobject_detach h0 obj).lst parent
          else (vobject_detach h0 obj).prv a,
        nxt := fun a =>
          match (vobject_detach h0 obj).lst parent with
          | some q => if a = q then some obj else (vobject_detach h0 obj).nxt a
          | none => (vobject_detach h0 obj).nxt a,
        fst := fun q2 =>
          match (vobject_detach h0 obj).lst parent with
          | some _ => (vobject_detach h0 obj).fst q2
          | none => if q2 = parent then some obj else (vobject_detach h0 obj).fst q2,
        lst := fun q2 => if q2 = parent then some obj
          else (vobject_detach h0 obj).lst q2 } := by
  rw [vobject_attach]
  rcases hlp : (vobject_detach h0 obj).lst parent with _ | q <;>
    · refine Heap.ext (funext fun x => ?_) (funext fun x => ?_) (funext fun x => ?_)
        (funext fun x => ?_) (funext fun x => ?_) <;>
        simp only [hlp, upd] <;>
        split_ifs <;>
        (try simp_all [upd]) <;>
        (intro h9; omega)

theorem seg_unique (h : Heap) (p : Nat) :
    ∀ (l l' : List Nat) (s : Option Nat × Option Nat) (p1 p1' : Option Nat),
      Seg h p s l (p1, none) → Seg h p s l' (p1', none) → l = l' := by
  intro l
  induction l with
  | nil =>
    intro l' s p1 p1' hs hs2
    have hcur : s.2 = none := by
      have := congrArg Prod.snd (show (p1, none) = s from hs)
      simpa using this.symm
    match l', hs2 with
    | [], _ => rfl
    | a :: t, hs2 =>
      have h21 : s.2 = some a := hs2.1
      rw [hcur] at h21
      exact Option.noConfusion h21
  | cons a t ih =>
    intro l' s p1 p1' hs hs2
    obtain ⟨hcur, hpar, hprv, hrest⟩ := hs
    match l', hs2 with
    | [], hs2 =>
      have hcur2 : s.2 = none := by
        have := congrArg Prod.snd (show (p1', none) = s from hs2)
        simpa using this.symm
      rw [hcur2] at hcur
      exact Option.noConfusion hcur
    | b :: t', hs2 =>
      obtain ⟨hcur2, hpar2, hprv2, hrest2⟩ := hs2
      have hab : a = b := by
        have h2b : s.2 = some b := hcur2
        rw [hcur] at h2b
        exact Option.some_inj.mp h2b
      subst hab
      rw [ih t' _ _ _ hrest hrest2]

theorem detach_represents (h : Heap) (vo : Nat) (hInv : Inv h) (p : Nat) (l : List Nat)
    (hrep : Represents h p l) :
    Represents (vobject_detach h vo) p (l.erase vo) := by
  obtain ⟨hseg, hlst, hmem, hnd⟩ := hrep
  match hpv : h.par vo with
  | none =>
    have hdet : vobject_detach h vo = h := by rw [vobject_detach, hpv]
    have hnotmem : vo ∉ l := by
      intro hin
      have := (hmem vo).mpr hin
      rw [hpv] at this
      exact Option.noConfusion this
    rw [hdet, List.erase_of_not_mem hnotmem]
    exact ⟨hseg, hlst, hmem, hnd⟩
  | some p0 =>
    have hEq := detach_eq h vo p0 hpv
    obtain ⟨l0, hrep0⟩ := hInv.1 p0
    have hvo0 : vo ∈ l0 := (hrep0.2.2.1 vo).mp hpv
    obtain ⟨l1, l2, hl0⟩ := List.append_of_mem hvo0
    have hnd0 := hrep0.2.2.2
    rw [hl0] at hnd0
    have hdisj := List.nodup_append.mp hnd0
    have hvonl1 : vo ∉ l1 := fun hin => hdisj.2.2 hin (List.mem_cons_self _ _)
    have hvonl2 : vo ∉ l2 := (List.nodup_cons.mp hdisj.2.1).1
    have hseg0 := hrep0.1
    rw [hl0] at hseg0
    obtain ⟨m, hseg1, hseg2⟩ := (seg_append h p0 l1 (vo :: l2) _ _).mp hseg0
    obtain ⟨hm2, hparvo, hprvvo, hseg3⟩ := hseg2
    have hprvchar : h.prv vo = l1.getLast? := by
      rcases seg_out_prev h p0 l1 _ _ hseg1 with ⟨hl1nil, hmeq⟩ | ⟨hl1ne, hm1⟩
      · subst hl1nil
        rw [hprvvo, hmeq]
        rfl
      · rw [hprvvo, hm1]
    have hnxtchar : (l2 = [] ∧ h.nxt vo = none) ∨
        (∃ b t, l2 = b :: t ∧ h.nxt vo = some b) := by
      match l2, hseg3 with
      | [], hseg3 =>
        left
        refine ⟨rfl, ?_⟩
        have := congrArg Prod.snd (show ((l1 ++ [vo]).getLast?, none)
            = (some vo, h.nxt vo) from hseg3)
        simpa using this.symm
      | b :: t, hseg3 =>
        right
        exact ⟨b, t, rfl, hseg3.1⟩
    -- members of the old list of vo are exactly those with parent p0
    have hmem0 := hrep0.2.2.1
    by_cases hpp : p = p0
    · subst hpp
      obtain ⟨m1, m2⟩ := m
      simp only [] at hm2 hprvvo hseg1
      subst hm2
      have hleql : l = l1 ++ vo :: l2 :=
        (seg_unique h p l l0 (none, h.fst p) _ _ hseg hrep0.1).trans hl0
      subst hleql
      rw [List.erase_append_right _ hvonl1, List.erase_cons_head]
      -- last-of-l1 facts
      have hm1char : m1 = l1.getLast? := by
        rcases seg_out_prev h p l1 _ _ hseg1 with ⟨hl1nil, hmeq⟩ | ⟨hl1ne, hm1⟩
        · subst hl1nil
          have h2 := congrArg Prod.fst hmeq
          simpa using h2
        · simpa using hm1
      have hfst1 : l1 = [] → h.fst p = some vo := by
        intro hl1
        subst hl1
        have : ((m1, some vo) : Option Nat × Option Nat) = (none, h.fst p) := hseg1
        have := congrArg Prod.snd this
        simpa using this.symm
      have hfst2 : ∀ hd1 t1, l1 = hd1 :: t1 → h.fst p = some hd1 ∧ hd1 ≠ vo := by
        intro hd1 t1 hl1
        subst hl1
        refine ⟨hseg1.1, ?_⟩
        intro hEq2
        subst hEq2
        exact hvonl1 (List.mem_cons_self _ _)
      -- membership
      have hmemnew : ∀ a, (vobject_detach h vo).par a = some p ↔ a ∈ l1 ++ l2 := by
        intro a
        rw [hEq]
        simp only []
        by_cases hav : a = vo
        · subst hav
          rw [if_pos rfl]
          constructor
          · intro hno
            exact Option.noConfusion hno
          · intro hin
            rcases List.mem_append.mp hin with hin | hin
            · exact (hvonl1 hin).elim
            · exact (hvonl2 hin).elim
        · rw [if_neg hav]
          rw [hmem0 a, hl0]
          constructor
          · intro hin
            rcases List.mem_append.mp hin with hin | hin
            · exact List.mem_append.mpr (Or.inl hin)
            · rcases List.mem_cons.mp hin with hEq2 | hin
              · exact absurd hEq2 hav
              · exact List.mem_append.mpr (Or.inr hin)
          · intro hin
            rcases List.mem_append.mp hin with hin | hin
            · exact List.mem_append.mpr (Or.inl hin)
            · exact List.mem_append.mpr (Or.inr (List.mem_cons_of_mem _ hin))
      have hndnew : (l1 ++ l2).Nodup := by
        refine List.Nodup.sublist ?_ hnd0
        exact List.Sublist.append_left (List.sublist_cons_self _ _) l1
      -- the four splice shapes
      rcases hnxtchar with ⟨hl2nil, hnxtvo⟩ | ⟨b, t, hl2bt, hnxtvo⟩
      · subst hl2nil
        match hl1eq : l1, hseg1, hm1char, hprvchar, hmemnew, hndnew, hfst1, hfst2, hvonl1 with
        | [], hseg1, hm1char, hprvchar, hmemnew, hndnew, hfst1, hfst2, hvonl1 =>
          refine ⟨?_, ?_, hmemnew, hndnew⟩
          · simp only [List.nil_append, Seg, List.getLast?_nil]
            rw [hEq]
            simp only []
            rw [if_pos trivial, if_pos (hfst1 rfl), hnxtvo]
          · rw [hEq]
            simp only []
            rw [if_pos trivial]
            have hlst0 : h.lst p = some vo := by
              rw [hrep0.2.1, hl0]
              rfl
            rw [if_pos hlst0, hprvchar]
            rfl
        | hd1 :: t1, hseg1, hm1char, hprvchar, hmemnew, hndnew, hfst1, hfst2, hvonl1 =>
          have hla : (hd1 :: t1).getLast? = some ((hd1 :: t1).getLast (by simp)) :=
            List.getLast?_eq_getLast _ _
          set la := (hd1 :: t1).getLast (by simp) with hladef
          have hlamem : la ∈ hd1 :: t1 := List.getLast_mem _
          have hlane : la ≠ vo := fun hEq2 => hvonl1 (hEq2 ▸ hlamem)
          have hfstp := hfst2 hd1 t1 rfl
          have hretarget := seg_retarget h (vobject_detach h vo) p (hd1 :: t1)
            (none, h.fst p) m1 (some vo) la hseg1 hla hdisj.1 ?_ ?_
          · refine ⟨?_, ?_, hmemnew, hndnew⟩
            · have hfstEq : (vobject_detach h vo).fst p = h.fst p := by
                rw [hEq]
                simp only []
                rw [if_pos trivial, if_neg (by
                  rw [hfstp.1]
                  intro hc
                  exact hfstp.2 (Option.some_inj.mp hc))]
              have hnxtla : (vobject_detach h vo).nxt la = none := by
                rw [hEq]
                simp only []
                rw [if_neg hlane, if_pos (by rw [hprvchar, hla]), hnxtvo]
              rw [List.append_nil, hla, hfstEq]
              rw [hm1char, hla] at hretarget
              rw [hnxtla] at hretarget
              exact hretarget
            · rw [hEq]
              simp only []
              rw [if_pos trivial]
              have hlst0 : h.lst p = some vo := by
                rw [hrep0.2.1, hl0]
                rw [List.getLast?_append_of_ne_nil _ (by simp)]
                rfl
              rw [if_pos hlst0, hprvchar, List.append_nil]
          · intro a ha
            have hav : a ≠ vo := fun hEq2 => hvonl1 (hEq2 ▸ ha)
            rw [hEq]
            simp only []
            rw [if_neg hav, if_neg hav, if_neg (by rw [hnxtvo]; exact fun hc => Option.noConfusion hc)]
            exact ⟨rfl, rfl⟩
          · intro a ha hala
            have hav : a ≠ vo := fun hEq2 => hvonl1 (hEq2 ▸ ha)
            rw [hEq]
            simp only []
            rw [if_neg hav, if_neg (by
              rw [hprvchar, hla]
              intro hc
              exact hala (Option.some_inj.mp hc).symm)]
      · subst hl2bt
        have hseg3b : Seg h p (some vo, h.nxt vo) (b :: t) ((b :: t).getLast?, none) := by
          have : (l1 ++ vo :: b :: t).getLast? = (b :: t).getLast? := by
            rw [List.getLast?_append_of_ne_nil _ (by simp), List.getLast?_cons_cons]
          rw [this] at hseg3
          exact hseg3
        have hbnevo : b ≠ vo := fun hEq2 => hvonl2 (hEq2 ▸ List.mem_cons_self _ _)
        have hlast2 : ∀ c, (b :: t).getLast? = some c → c ≠ vo := by
          intro c hc hEq2
          subst hEq2
          have hmemc : c ∈ b :: t := by
            obtain ⟨hne2, heq⟩ := List.mem_getLast?_eq_getLast (Option.mem_def.mpr hc)
            rw [heq]
            exact List.getLast_mem hne2
          exact hvonl2 hmemc
        have hlstpEq : (vobject_detach h vo).lst p = (b :: t).getLast? := by
          rw [hEq]
          simp only []
          rw [if_pos trivial]
          have hlst0 : h.lst p = (b :: t).getLast? := by
            rw [hrep0.2.1, hl0, List.getLast?_append_of_ne_nil _ (by simp),
              List.getLast?_cons_cons]
          rw [hlst0, if_neg (by
            match hgl : (b :: t).getLast? with
            | none => exact fun hc => Option.noConfusion hc
            | some c =>
              intro hc
              exact hlast2 c hgl (Option.some_inj.mp hc))]
        match hl1eq : l1, hseg1, hm1char, hprvchar, hmemnew, hndnew, hfst1, hfst2, hvonl1 with
        | [], hseg1, hm1char, hprvchar, hmemnew, hndnew, hfst1, hfst2, hvonl1 =>
          have hprvnone : h.prv vo = none := hprvchar
          have hrehead := seg_rehead h (vobject_detach h vo) p (b :: t) (some vo) none
            (h.nxt vo) ((b :: t).getLast?, none) b hseg3b (by rw [List.head?_cons])
            (List.nodup_cons.mp hdisj.2.1).2 ?_ ?_ ?_
          · refine ⟨?_, ?_, hmemnew, hndnew⟩
            · have hfstEq : (vobject_detach h vo).fst p = h.nxt vo := by
                rw [hEq]
                simp only []
                rw [if_pos trivial, if_pos (hfst1 rfl)]
              show Seg (vobject_detach h vo) p (none, (vobject_detach h vo).fst p)
                ([] ++ b :: t) ((([] : List Nat) ++ b :: t).getLast?, none)
              rw [List.nil_append, hfstEq]
              exact hrehead
            · rw [hlstpEq]
              rfl
          · intro a ha
            have hav : a ≠ vo := fun hEq2 => hvonl2 (hEq2 ▸ ha)
            rw [hEq]
            simp only []
            rw [if_neg hav, if_neg hav, if_neg (by
              rw [hprvnone]
              exact fun hc => Option.noConfusion hc)]
            exact ⟨rfl, rfl⟩
          · intro a ha hab
            have hav : a ≠ vo := fun hEq2 => hvonl2 (hEq2 ▸ ha)
            rw [hEq]
            simp only []
            rw [if_neg hav, if_neg (by
              rw [hnxtvo]
              intro hc
              exact hab (Option.some_inj.mp hc).symm)]
          · rw [hEq]
            simp only []
            rw [if_neg hbnevo, if_pos (by rw [hnxtvo]), hprvnone]
        | hd1 :: t1, hseg1, hm1char, hprvchar, hmemnew, hndnew, hfst1, hfst2, hvonl1 =>
          have hla : (hd1 :: t1).getLast? = some ((hd1 :: t1).getLast (by simp)) :=
            List.getLast?_eq_getLast _ _
          set la := (hd1 :: t1).getLast (by simp) with hladef
          have hlamem : la ∈ hd1 :: t1 := List.getLast_mem _
          have hlane : la ≠ vo := fun hEq2 => hvonl1 (hEq2 ▸ hlamem)
          have hlanl2 : la ∉ b :: t := fun hin => hdisj.2.2 hlamem (List.mem_cons_of_mem _ hin)
          have hfstp := hfst2 hd1 t1 rfl
          have hnxtla : (vobject_detach h vo).nxt la = some b := by
            rw [hEq]
            simp only []
            rw [if_neg hlane, if_pos (by rw [hprvchar, hla]), hnxtvo]
          have hretarget := seg_retarget h (vobject_detach h vo) p (hd1 :: t1)
            (none, h.fst p) m1 (some vo) la hseg1 hla hdisj.1 ?_ ?_
          · have hrehead := seg_rehead h (vobject_detach h vo) p (b :: t) (some vo)
              (some la) (h.nxt vo) ((b :: t).getLast?, none) b hseg3b (by rw [List.head?_cons])
              (List.nodup_cons.mp hdisj.2.1).2 ?_ ?_ ?_
            · refine ⟨?_, ?_, hmemnew, hndnew⟩
              · have hfstEq : (vobject_detach h vo).fst p = h.fst p := by
                  rw [hEq]
                  simp only []
                  rw [if_pos trivial, if_neg (by
                    rw [hfstp.1]
                    intro hc
                    exact hfstp.2 (Option.some_inj.mp hc))]
                rw [hm1char, hla, hnxtla] at hretarget
                rw [hnxtvo] at hrehead
                have hcomb := (seg_append (vobject_detach h vo) p (hd1 :: t1) (b :: t)
                  (none, h.fst p) ((b :: t).getLast?, none)).mpr
                  ⟨(some la, some b), hretarget, hrehead⟩
                show Seg (vobject_detach h vo) p (none, (vobject_detach h vo).fst p)
                  ((hd1 :: t1) ++ b :: t) (((hd1 :: t1) ++ b :: t).getLast?, none)
                rw [hfstEq, List.getLast?_append_of_ne_nil _ (by simp)]
                exact hcomb
              · rw [hlstpEq, List.getLast?_append_of_ne_nil _ (by simp)]
            · intro a ha
              have hav : a ≠ vo := fun hEq2 => hvonl2 (hEq2 ▸ ha)
              rw [hEq]
              simp only []
              rw [if_neg hav, if_neg hav, if_neg (by
                rw [hprvchar, hla]
                intro hc
                have := (Option.some_inj.mp hc).symm
                subst this
                exact hdisj.2.2 hlamem (List.mem_cons_of_mem _ ha))]
              exact ⟨rfl, rfl⟩
            · intro a ha hab
              have hav : a ≠ vo := fun hEq2 => hvonl2 (hEq2 ▸ ha)
              rw [hEq]
              simp only []
              rw [if_neg hav, if_neg (by
                rw [hnxtvo]
                intro hc
                exact hab (Option.some_inj.mp hc).symm)]
            · rw [hEq]
              simp only []
              rw [if_neg hbnevo, if_pos (by rw [hnxtvo]), hprvchar, hla]
          · intro a ha
            have hav : a ≠ vo := fun hEq2 => hvonl1 (hEq2 ▸ ha)
            rw [hEq]
            simp only []
            rw [if_neg hav, if_neg hav, if_neg (by
              rw [hnxtvo]
              intro hc
              have := (Option.some_inj.mp hc).symm
              subst this
              exact hdisj.2.2 ha (List.mem_cons_of_mem _ (List.mem_cons_self _ _)))]
            exact ⟨rfl, rfl⟩
          · intro a ha hala
            have hav : a ≠ vo := fun hEq2 => hvonl1 (hEq2 ▸ ha)
            rw [hEq]
            simp only []
            rw [if_neg hav, if_neg (by
              rw [hprvchar, hla]
              intro hc
              exact hala (Option.some_inj.mp hc).symm)]
    · -- p ≠ p0: vo and its sibling links are all outside l; everything is framed
      have hvonl : vo ∉ l := by
        intro hin
        have := (hmem vo).mpr hin
        rw [hpv] at this
        exact hpp (Option.some_inj.mp this).symm
      rw [List.erase_of_not_mem hvonl]
      have hout : ∀ a ∈ l, a ≠ vo ∧ h.nxt vo ≠ some a ∧ h.prv vo ≠ some a := by
        intro a ha
        have hpar_a : h.par a = some p := (hmem a).mpr ha
        have hnot0 : a ∉ l0 := by
          intro hin0
          have h2 := (hmem0 a).mpr hin0
          rw [hpar_a] at h2
          exact hpp (Option.some_inj.mp h2)
        refine ⟨?_, ?_, ?_⟩
        · intro hEq2
          subst hEq2
          exact hnot0 hvo0
        · intro hnx
          rcases hnxtchar with ⟨-, hn⟩ | ⟨b, t, hbt, hn⟩
          · rw [hn] at hnx
            exact Option.noConfusion hnx
          · rw [hn] at hnx
            have hab : a = b := (Option.some_inj.mp hnx).symm
            subst hab
            exact hnot0 (by
              rw [hl0, hbt]
              exact List.mem_append.mpr (Or.inr (List.mem_cons_of_mem _
                (List.mem_cons_self _ _))))
        · intro hpr
          rw [hprvchar] at hpr
          have : a ∈ l1 := by
            obtain ⟨hne2, heq⟩ := List.mem_getLast?_eq_getLast (Option.mem_def.mpr hpr)
            rw [heq]
            exact List.getLast_mem hne2
          exact hnot0 (by rw [hl0]; exact List.mem_append.mpr (Or.inl this))
      refine ⟨?_, ?_, ?_, hnd⟩
      · refine seg_frame h _ p l _ _ ?_ ?_
        · have hfst : (vobject_detach h vo).fst p = h.fst p := by
            rw [hEq]
            simp [hpp]
          rw [hfst]
          exact hseg
        · intro a ha
          obtain ⟨hav, hanx, hapr⟩ := hout a ha
          rw [hEq]
          simp only []
          rw [if_neg hav, if_neg hav, if_neg hav, if_neg hapr, if_neg hanx]
          exact ⟨rfl, rfl, rfl⟩
      · rw [hEq]
        simp only []
        rw [if_neg hpp]
        exact hlst
      · intro a
        rw [hEq]
        simp only []
        by_cases hav : a = vo
        · subst hav
          rw [if_pos rfl]
          constructor
          · intro hno
            exact Option.noConfusion hno
          · intro hin
            exact absurd hin hvonl
        · rw [if_neg hav]
          exact hmem a

theorem detach_inv (h : Heap) (vo : Nat) (hInv : Inv h) : Inv (vobject_detach h vo) := by
  constructor
  · intro p
    obtain ⟨l, hrep⟩ := hInv.1 p
    exact ⟨l.erase vo, detach_represents h vo hInv p l hrep⟩
  · intro a hpar
    match hpv : h.par vo with
    | none =>
      have hdet : vobject_detach h vo = h := by rw [vobject_detach, hpv]
      rw [hdet] at hpar ⊢
      exact hInv.2 a hpar
    | some p =>
      have hEq := detach_eq h vo p hpv
      rw [hEq] at hpar ⊢
      simp only [] at hpar ⊢
      by_cases hav : a = vo
      · subst hav
        simp
      · rw [if_neg hav] at hpar
        have hbase := hInv.2 a hpar
        obtain ⟨l0, hrep0⟩ := hInv.1 p
        have hvo0 : vo ∈ l0 := (hrep0.2.2.1 vo).mp hpv
        have hnota : ∀ q ∈ l0, q ≠ a := by
          intro q hq hEq2
          subst hEq2
          have := (hrep0.2.2.1 q).mpr hq
          rw [hpar] at this
          exact Option.noConfusion this
        have hprvne : ¬ h.prv vo = some a := by
          intro hc
          rcases seg_prv_mem h p l0 _ _ hrep0.1 vo hvo0 with hp | ⟨q, hq, hpq⟩
          · rw [hc] at hp
            exact Option.noConfusion hp
          · exact hnota q hq (Option.some_inj.mp (hpq.symm.trans hc))
        have hnxtne : ¬ h.nxt vo = some a := by
          intro hc
          rcases seg_nxt_mem h p l0 _ _ hrep0.1 vo hvo0 with hp | ⟨q, hq, hpq⟩
          · rw [hc] at hp
            exact Option.noConfusion hp
          · exact hnota q hq (Option.some_inj.mp (hpq.symm.trans hc))
        rw [if_neg hav, if_neg hav, if_neg hprvne, if_neg hnxtne]
        exact hbase

theorem detach_par_self (h : Heap) (vo : Nat) : (vobject_detach h vo).par vo = none := by
  match hpv : h.par vo with
  | none =>
    rw [show vobject_detach h vo = h from by rw [vobject_detach, hpv]]
    exact hpv
  | some p =>
    rw [detach_eq h vo p hpv]
    simp

theorem attach_represents_parent (h0 : Heap) (obj parent : Nat) (l : List Nat)
    (hrep : Represents (vobject_detach h0 obj) parent l)
    (hpo : (vobject_detach h0 obj).par obj = none)
    (hnx : (vobject_detach h0 obj).nxt obj = none) :
    Represents (vobject_attach h0 obj parent) parent (l ++ [obj]) := by
  have hEq := attach_eq h0 obj parent
  obtain ⟨hseg, hlst, hmem, hnd⟩ := hrep
  have hobjnl : obj ∉ l := by
    intro hin
    have := (hmem obj).mpr hin
    rw [hpo] at this
    exact Option.noConfusion this
  have hmemnew : ∀ a, (vobject_attach h0 obj parent).par a = some parent ↔ a ∈ l ++ [obj] := by
    intro a
    rw [hEq]
    simp only []
    by_cases hao : a = obj
    · subst hao
      simp
    · rw [if_neg hao, hmem a]
      constructor
      · intro hin
        exact List.mem_append.mpr (Or.inl hin)
      · intro hin
        rcases List.mem_append.mp hin with hin | hin
        · exact hin
        · exact absurd (List.mem_singleton.mp hin) hao
  have hndnew : (l ++ [obj]).Nodup := by
    rw [List.nodup_append]
    exact ⟨hnd, List.nodup_singleton _, fun a ha hb => hobjnl ((List.mem_singleton.mp hb) ▸ ha)⟩
  have hlstnew : (vobject_attach h0 obj parent).lst parent = (l ++ [obj]).getLast? := by
    rw [hEq]
    simp [List.getLast?_concat]
  refine ⟨?_, hlstnew, hmemnew, hndnew⟩
  match hlp : (vobject_detach h0 obj).lst parent with
  | none =>
    have hlnil : l = [] := List.getLast?_eq_none_iff.mp (hlst.symm.trans hlp)
    subst hlnil
    have hfstnew : (vobject_attach h0 obj parent).fst parent = some obj := by
      rw [hEq]
      simp [hlp]
    rw [List.nil_append, hfstnew]
    refine ⟨rfl, ?_, ?_, ?_⟩
    · rw [hEq]
      simp
    · rw [hEq]
      simp [hlp]
    · show ((([] : List Nat) ++ [obj]).getLast?, (none : Option Nat))
        = (some obj, (vobject_attach h0 obj parent).nxt obj)
      rw [hEq]
      simp [hlp, hnx]
  | some q =>
    have hlq : l.getLast? = some q := hlst.symm.trans hlp
    have hqmem : q ∈ l := by
      obtain ⟨hne2, heq⟩ := List.mem_getLast?_eq_getLast (Option.mem_def.mpr hlq)
      rw [heq]
      exact List.getLast_mem hne2
    have hqno : q ≠ obj := fun hq => hobjnl (hq ▸ hqmem)
    have hfstnew : (vobject_attach h0 obj parent).fst parent
        = (vobject_detach h0 obj).fst parent := by
      rw [hEq]
      simp [hlp]
    have hretarget := seg_retarget (vobject_detach h0 obj) (vobject_attach h0 obj parent)
      parent l (none, (vobject_detach h0 obj).fst parent) l.getLast? none q hseg hlq hnd ?_ ?_
    · have hnxtq : (vobject_attach h0 obj parent).nxt q = some obj := by
        rw [hEq]
        simp [hlp]
      rw [hnxtq] at hretarget
      have hobjseg : Seg (vobject_attach h0 obj parent) parent (l.getLast?, some obj) [obj]
          ((l ++ [obj]).getLast?, none) := by
        refine ⟨rfl, ?_, ?_, ?_⟩
        · rw [hEq]
          simp
        · rw [hEq]
          simp [hlp, hlq]
        · show ((l ++ [obj]).getLast?, (none : Option Nat))
            = (some obj, (vobject_attach h0 obj parent).nxt obj)
          rw [hEq]
          simp [hlp, hnx, List.getLast?_concat, Ne.symm hqno]
      have hcomb := (seg_append (vobject_attach h0 obj parent) parent l [obj]
        (none, (vobject_detach h0 obj).fst parent) ((l ++ [obj]).getLast?, none)).mpr
        ⟨(l.getLast?, some obj), hretarget, hobjseg⟩
      rw [hfstnew]
      exact hcomb
    · intro a ha
      have hao : a ≠ obj := fun hc => hobjnl (hc ▸ ha)
      rw [hEq]
      simp only []
      rw [if_neg hao, if_neg hao]
      exact ⟨rfl, rfl⟩
    · intro a ha haq
      rw [hEq]
      simp [hlp, haq]

theorem attach_represents_other (h0 : Heap) (obj parent p : Nat) (l lpar : List Nat)
    (hpp : p ≠ parent)
    (hrep : Represents (vobject_detach h0 obj) p l)
    (hrepP : Represents (vobject_detach h0 obj) parent lpar)
    (hpo : (vobject_detach h0 obj).par obj = none) :
    Represents (vobject_attach h0 obj parent) p l := by
  have hEq := attach_eq h0 obj parent
  obtain ⟨hseg, hlst, hmem, hnd⟩ := hrep
  have hobjnl : obj ∉ l := by
    intro hin
    have := (hmem obj).mpr hin
    rw [hpo] at this
    exact Option.noConfusion this
  have hqnl : ∀ q, (vobject_detach h0 obj).lst parent = some q → q ∉ l := by
    intro q hq hin
    have hq1 : lpar.getLast? = some q := hrepP.2.1.symm.trans hq
    have hqmem : q ∈ lpar := by
      obtain ⟨hne2, heq⟩ := List.mem_getLast?_eq_getLast (Option.mem_def.mpr hq1)
      rw [heq]
      exact List.getLast_mem hne2
    have hq2 : (vobject_detach h0 obj).par q = some parent := (hrepP.2.2.1 q).mpr hqmem
    have hq3 : (vobject_detach h0 obj).par q = some p := (hmem q).mpr hin
    exact hpp (Option.some_inj.mp (hq3.symm.trans hq2))
  refine ⟨?_, ?_, ?_, hnd⟩
  · have hfst : (vobject_attach h0 obj parent).fst p = (vobject_detach h0 obj).fst p := by
      rw [hEq]
      match hlp : (vobject_detach h0 obj).lst parent with
      | some q => simp [hlp]
      | none => simp [hlp, hpp]
    rw [hfst]
    refine seg_frame (vobject_detach h0 obj) _ p l _ _ hseg ?_
    intro a ha
    have hao : a ≠ obj := fun hc => hobjnl (hc ▸ ha)
    rw [hEq]
    refine ⟨by simp [hao], by simp [hao], ?_⟩
    match hlp : (vobject_detach h0 obj).lst parent with
    | some q =>
      have haq : a ≠ q := fun hc => hqnl q hlp (hc ▸ ha)
      simp [hlp, haq]
    | none => simp [hlp]
  · have hlstp : (vobject_attach h0 obj parent).lst p = (vobject_detach h0 obj).lst p := by
      rw [hEq]
      simp [hpp]
    rw [hlstp]
    exact hlst
  · intro a
    rw [hEq]
    by_cases hao : a = obj
    · subst hao
      simp [Ne.symm hpp, hobjnl]
    · simp only [if_neg hao]
      exact hmem a

theorem attach_inv (h : Heap) (obj parent : Nat) (hInv : Inv h) :
    Inv (vobject_attach h obj parent) := by
  have hinv2 := detach_inv h obj hInv
  have hpo : (vobject_detach h obj).par obj = none := detach_par_self h obj
  have hnx : (vobject_detach h obj).nxt obj = none := (hinv2.2 obj hpo).1
  obtain ⟨lpar, hrepP⟩ := hinv2.1 parent
  constructor
  · intro p
    by_cases hpq : p = parent
    · subst hpq
      exact ⟨lpar ++ [obj], attach_represents_parent h obj p lpar hrepP hpo hnx⟩
    · obtain ⟨l, hrep⟩ := hinv2.1 p
      exact ⟨l, attach_represents_other h obj parent p l lpar hpq hrep hrepP hpo⟩
  · intro a hpar
    have hEq := attach_eq h obj parent
    rw [hEq] at hpar
    by_cases hao : a = obj
    · subst hao
      simp at hpar
    · simp only [if_neg hao] at hpar
      have hbase := hinv2.2 a hpar
      constructor
      · rw [hEq]
        match hlp : (vobject_detach h obj).lst parent with
        | some q =>
          have haq : a ≠ q := by
            intro hc
            subst hc
            have hq1 : lpar.getLast? = some a := hrepP.2.1.symm.trans hlp
            have hqmem : a ∈ lpar := by
              obtain ⟨hne2, heq⟩ := List.mem_getLast?_eq_getLast (Option.mem_def.mpr hq1)
              rw [heq]
              exact List.getLast_mem hne2
            have := (hrepP.2.2.1 a).mpr hqmem
            rw [hpar] at this
            exact Option.noConfusion this
          simp [hlp, haq]
          exact hbase.1
        | none =>
          simp [hlp]
          exact hbase.1
      · rw [hEq]
        simp [hao]
        exact hbase.2

theorem attachSequence_inv (ops : List (Nat × Nat)) :
    ∀ h : Heap, Inv h → Inv (attachSequence h ops) := by
  induction ops with
  | nil =>
    intro h hInv
    exact hInv
  | cons op rest ih =>
    intro h hInv
    exact ih _ (attach_inv h op.1 op.2 hInv)

theorem emptyHeap_inv : Inv emptyHeap := by
  constructor
  · intro p
    refine ⟨[], rfl, rfl, ?_, List.nodup_nil⟩
    intro a
    constructor
    · intro hc
      exact Option.noConfusion hc
    · intro hc
      exact absurd hc (List.not_mem_nil a)
  · intro a _
    exact ⟨rfl, rfl⟩

/-- C6: the hierarchy invariant (`Inv`: every parent's child pointers form a
consistent doubly linked list in which each child occurs exactly once, a
node points to a parent iff it occurs in that parent's list, and a
parentless node has no sibling links) is preserved by `vobject_detach`, by
`vobject_attach`, and by any sequence of `vobject_attach` calls (the only
hierarchy mutations performed while parsing); `vobject_detach` removes the
node from its parent's child list, and `vobject_attach` first removes the
node from any previous parent and then appends it as the last child of the
new parent. -/
theorem C6_hierarchy_invariant (h : Heap) (vo obj parent : Nat)
    (ops : List (Nat × Nat)) (hInv : Inv h) :
    Inv (vobject_detach h vo) ∧
    Inv (vobject_attach h obj parent) ∧
    Inv (attachSequence h ops) ∧
    (∀ p l, Represents h p l → Represents (vobject_detach h vo) p (l.erase vo)) ∧
    (∀ l, Represents (vobject_detach h obj) parent l →
        Represents (vobject_attach h obj parent) parent (l ++ [obj])) := by
  have hpo : (vobject_detach h obj).par obj = none := detach_par_self h obj
  have hnx : (vobject_detach h obj).nxt obj = none :=
    ((detach_inv h obj hInv).2 obj hpo).1
  refine ⟨detach_inv h vo hInv, attach_inv h obj parent hInv,
    attachSequence_inv ops h hInv, ?_, ?_⟩
  · intro p l hrep
    exact detach_represents h vo hInv p l hrep
  · intro l hrep
    exact attach_represents_parent h obj parent l hrep hpo hnx

theorem C6_hierarchy_invariant_witness :
    Inv emptyHeap ∧
    (Inv (vobject_detach emptyHeap 0) ∧ Inv (vobject_attach emptyHeap 1 2) ∧
     Inv (attachSequence emptyHeap [(1, 2), (3, 2)]) ∧
     (∀ p l, Represents emptyHeap p l →
        Represents (vobject_detach emptyHeap 0) p (l.erase 0)) ∧
     (∀ l, Represents (vobject_detach emptyHeap 1) 2 l →
        Represents (vobject_attach emptyHeap 1 2) 2 (l ++ [1]))) :=
  ⟨emptyHeap_inv, C6_hierarchy_invariant emptyHeap 0 1 2 [(1, 2), (3, 2)] emptyHeap_inv⟩

end VobjSpec
